import Mathlib

/-!
# Inheritance resolution of `config/gonew_config.go`

A shallow embedding of the inheritance graph, the depth-first traversal
(`configInheritanceDFS.visit`), the merge-order resolver (`HasCycles`), the
entry resolvers (`Gonew.Environment`, `Gonew.Project`) and the top-level
validator (`Gonew.Validate`), followed by theorems about them.

Modelling conventions

* A Go `map[string]T` that is only read is an association list; the value bound
  to a key is the first one found (`List.lookup`).  The order of an adjacency
  list is the order in which `range` happens to iterate over the adjacency set;
  theorems quantified over all graphs therefore hold for every iteration order
  (`visit` ranges over the adjacency of a vertex at most once per traversal).
* The traversal log `map[string]*struct{start, finish int}` is a function into
  `Option`: `none` is the nil pointer that indexing a Go map with an absent key
  returns.
* Go `int` timestamps are natural numbers: the counter starts at `1` and is only
  incremented, at most twice per vertex.
* A run either returns, panics on a nil log entry, or exhausts the recursion
  budget of the model (`Outcome`).
-/

namespace GoNew

/-- Result of running a piece of the program. -/
inductive Outcome (α : Type) where
  | ok (a : α)
  | nilDeref
  | outOfFuel
  deriving DecidableEq, Repr

/-- The type `configInheritanceGraph`: vertex name to the names it inherits from. -/
abbrev configInheritanceGraph := List (String × List String)

/-- Whether `v` is a key of the map `g` (the `ok` of `_, ok := g[v]`). -/
def isKey (g : configInheritanceGraph) (v : String) : Bool :=
  (g.lookup v).isSome

/-- The adjacency `g[v]`, in iteration order; a missing key yields the nil map,
over which `range` does not iterate. -/
def adj (g : configInheritanceGraph) (v : String) : List String :=
  (g.lookup v).getD []

/-- The pointee `struct{ start, finish int }` of a log entry. -/
structure LogEntry where
  start : Nat
  finish : Nat
  deriving DecidableEq, Repr

/-- The type `configInheritanceDFSLog`; `none` is a nil entry. -/
abbrev configInheritanceDFSLog := String → Option LogEntry

/-- The function `makeConfigInheritanceDFSLog`: a fresh zero entry for every key of `g`. -/
def makeConfigInheritanceDFSLog (g : configInheritanceGraph) : configInheritanceDFSLog :=
  fun v => if isKey g v then some ⟨0, 0⟩ else none

/-- The method `configInheritanceDFSLog.State`. -/
def configInheritanceDFSLog.State (log : configInheritanceDFSLog) (vertex : String) : String :=
  match log vertex with
  | none => "invalid vertex"
  | some vlog =>
    if vlog.start = 0 then "unvisited"
    else if vlog.finish = 0 then "unfinished"
    else "finished"

/-- The observer fields of `configInheritanceDFS`; `none` is a nil func.  The
returned `error` of an observer is discarded by `visit`; its effect is a change
of the variables `σ` the closure captured. -/
structure Observers (σ : Type) where
  onBack : Option (String → String → σ → σ)
  onTree : Option (String → String → σ → σ)
  onCross : Option (String → String → σ → σ)
  onFinish : Option (String → σ → σ)
  onStart : Option (String → σ → σ)

/-- The mutable part of `configInheritanceDFS` (the fields `g` and `on*` are
never assigned after construction and are passed alongside), with the variables
captured by the observers. -/
structure configInheritanceDFS (σ : Type) where
  log : configInheritanceDFSLog
  finished : List String
  started : List String
  captured : σ

/-- The statement `if f != nil { f(v, w) }` for an edge observer `f`. -/
def fireEdge {σ : Type} (f : Option (String → String → σ → σ)) (v w : String)
    (dfs : configInheritanceDFS σ) : configInheritanceDFS σ :=
  match f with
  | none => dfs
  | some k => { dfs with captured := k v w dfs.captured }

/-- The statement `if f != nil { f(v) }` for a vertex observer `f`. -/
def fireVertex {σ : Type} (f : Option (String → σ → σ)) (v : String)
    (dfs : configInheritanceDFS σ) : configInheritanceDFS σ :=
  match f with
  | none => dfs
  | some k => { dfs with captured := k v dfs.captured }

/-- The assignment `log[v].start = t` through the (non-nil) pointer `log[v]`. -/
def setStart (log : configInheritanceDFSLog) (v : String) (e : LogEntry) (t : Nat) :
    configInheritanceDFSLog :=
  fun x => if x = v then some { e with start := t } else log x

/-- The assignment `log[v].finish = t` through the (non-nil) pointer `log[v]`. -/
def setFinish (log : configInheritanceDFSLog) (v : String) (e : LogEntry) (t : Nat) :
    configInheritanceDFSLog :=
  fun x => if x = v then some { e with finish := t } else log x

/-- The loop `for w := range dfs.g[v] { ... }` of `visit`, over the remaining
targets `ws`, with `recur` the recursive call `dfs.visit`. -/
def visitEdges {σ : Type} (obs : Observers σ)
    (recur : configInheritanceDFS σ → Nat → String → Outcome (configInheritanceDFS σ × Nat))
    (v : String) :
    List String → configInheritanceDFS σ → Nat → Outcome (configInheritanceDFS σ × Nat)
  | [], dfs, t => .ok (dfs, t)
  | w :: ws, dfs, t =>
    match dfs.log w with
    | none => .nilDeref
    | some e =>
      if e.start = 0 then
        match recur (fireEdge obs.onTree v w dfs) (t + 1) w with
        | .ok (dfs1, t1) => visitEdges obs recur v ws dfs1 t1
        | .nilDeref => .nilDeref
        | .outOfFuel => .outOfFuel
      else if e.finish = 0 then
        visitEdges obs recur v ws (fireEdge obs.onBack v w dfs) t
      else
        visitEdges obs recur v ws (fireEdge obs.onCross v w dfs) t

/-- The method `configInheritanceDFS.visit`, with a bound on the recursion depth. -/
def visit {σ : Type} (g : configInheritanceGraph) (obs : Observers σ) :
    Nat → configInheritanceDFS σ → Nat → String → Outcome (configInheritanceDFS σ × Nat)
  | 0, _, _, _ => .outOfFuel
  | fuel + 1, dfs, t, v =>
    match dfs.log v with
    | none => .nilDeref
    | some e =>
      let dfs1 := fireVertex obs.onStart v
        { dfs with log := setStart dfs.log v e t, started := dfs.started ++ [v] }
      match visitEdges obs (visit g obs fuel) v (adj g v) dfs1 t with
      | .ok (dfs2, t2) =>
        match dfs2.log v with
        | none => .nilDeref
        | some e2 =>
          .ok (fireVertex obs.onFinish v
            { dfs2 with log := setFinish dfs2.log v e2 (t2 + 1),
                        finished := dfs2.finished ++ [v] }, t2 + 1)
      | .nilDeref => .nilDeref
      | .outOfFuel => .outOfFuel

/-- The observers installed by `HasCycles`: only `onBack`, which sets the
captured `b` to `true`. -/
def hasCyclesObservers : Observers Bool :=
  { onBack := some (fun _ _ _ => true), onTree := none, onCross := none,
    onFinish := none, onStart := none }

/-- The traversal state `HasCycles` starts from (`b := false`, fresh log, empty
`finished` and `started`). -/
def hasCyclesInit (g : configInheritanceGraph) : configInheritanceDFS Bool :=
  { log := makeConfigInheritanceDFSLog g, finished := [], started := [], captured := false }

/-- The method `configInheritanceGraph.HasCycles` with recursion budget `fuel`. -/
def HasCyclesFuel (fuel : Nat) (g : configInheritanceGraph) (start : String) :
    Outcome (Bool × List String) :=
  match visit g hasCyclesObservers fuel (hasCyclesInit g) 1 start with
  | .ok (dfs, _) => .ok (dfs.captured, dfs.finished)
  | .nilDeref => .nilDeref
  | .outOfFuel => .outOfFuel

/-- The method `configInheritanceGraph.HasCycles`.  The recursion of `visit` is at
most one level per key, so `g.length + 1` levels are never exhausted
(`HasCyclesFuel_eq`). -/
def HasCycles (g : configInheritanceGraph) (start : String) : Outcome (Bool × List String) :=
  HasCyclesFuel (g.length + 1) g start

/-- The edge relation of the graph: `v` inherits from `w`. -/
def Edge (g : configInheritanceGraph) (v w : String) : Prop := w ∈ adj g v

/-- Reachability `Reach g v w`: `w` is reachable from `v` along zero or more edges. -/
def Reach (g : configInheritanceGraph) : String → String → Prop :=
  Relation.ReflTransGen (Edge g)

/-- Proper reachability `ReachPlus g v w`: `w` is reachable from `v` along one or more edges. -/
def ReachPlus (g : configInheritanceGraph) : String → String → Prop :=
  Relation.TransGen (Edge g)

/-- Every edge target is a key of the graph. -/
def TargetsAreKeys (g : configInheritanceGraph) : Prop :=
  ∀ v w, w ∈ adj g v → isKey g w = true

/-- A graph has a cycle when some vertex reaches itself along one or more edges. -/
def Cyclic (g : configInheritanceGraph) : Prop := ∃ x, ReachPlus g x x

/-- The two kinds of activation of the traversal: a call `visit(_, v)`, and the
remainder `ws` of the loop over the adjacency of `v`. -/
inductive Call where
  | vertex (v : String)
  | edges (v : String) (ws : List String)

/-- Big-step relation of the traversal: `Run g obs c dfs t dfs1 t1` when the
activation `c`, entered in state `dfs` with counter `t`, returns in state `dfs1`
with counter `t1`.  One rule per path through the body of `visit`. -/
inductive Run {σ : Type} (g : configInheritanceGraph) (obs : Observers σ) :
    Call → configInheritanceDFS σ → Nat → configInheritanceDFS σ → Nat → Prop
  | done (v : String) (dfs : configInheritanceDFS σ) (t : Nat) :
      Run g obs (.edges v []) dfs t dfs t
  | tree (v w : String) (ws : List String) (dfs dfs1 dfs2 : configInheritanceDFS σ)
      (t t1 t2 : Nat) (e : LogEntry) :
      dfs.log w = some e → e.start = 0 →
      Run g obs (.vertex w) (fireEdge obs.onTree v w dfs) (t + 1) dfs1 t1 →
      Run g obs (.edges v ws) dfs1 t1 dfs2 t2 →
      Run g obs (.edges v (w :: ws)) dfs t dfs2 t2
  | back (v w : String) (ws : List String) (dfs dfs2 : configInheritanceDFS σ)
      (t t2 : Nat) (e : LogEntry) :
      dfs.log w = some e → e.start ≠ 0 → e.finish = 0 →
      Run g obs (.edges v ws) (fireEdge obs.onBack v w dfs) t dfs2 t2 →
      Run g obs (.edges v (w :: ws)) dfs t dfs2 t2
  | cross (v w : String) (ws : List String) (dfs dfs2 : configInheritanceDFS σ)
      (t t2 : Nat) (e : LogEntry) :
      dfs.log w = some e → e.start ≠ 0 → e.finish ≠ 0 →
      Run g obs (.edges v ws) (fireEdge obs.onCross v w dfs) t dfs2 t2 →
      Run g obs (.edges v (w :: ws)) dfs t dfs2 t2
  | visit (v : String) (dfs dfs2 : configInheritanceDFS σ) (t t2 : Nat) (e e2 : LogEntry) :
      dfs.log v = some e →
      Run g obs (.edges v (adj g v))
        (fireVertex obs.onStart v
          { dfs with log := setStart dfs.log v e t, started := dfs.started ++ [v] }) t dfs2 t2 →
      dfs2.log v = some e2 →
      Run g obs (.vertex v) dfs t
        (fireVertex obs.onFinish v
          { dfs2 with log := setFinish dfs2.log v e2 (t2 + 1),
                      finished := dfs2.finished ++ [v] }) (t2 + 1)

/-- Consistency of a traversal state with the graph: the log has an entry
exactly for the keys, a non-zero `start` (`finish`) marks exactly the members of
`started` (`finished`), finished vertices were started, no vertex finished
twice, and every edge out of a finished vertex leads to a started vertex. -/
structure Inv {σ : Type} (g : configInheritanceGraph) (dfs : configInheritanceDFS σ) : Prop where
  dom : ∀ v, dfs.log v ≠ none ↔ isKey g v = true
  st : ∀ v e, dfs.log v = some e → (e.start ≠ 0 ↔ v ∈ dfs.started)
  fi : ∀ v e, dfs.log v = some e → (e.finish ≠ 0 ↔ v ∈ dfs.finished)
  sub : ∀ v ∈ dfs.finished, v ∈ dfs.started
  keys : ∀ v ∈ dfs.started, isKey g v = true
  nodup : dfs.finished.Nodup
  clos : ∀ u ∈ dfs.finished, ∀ w ∈ adj g u, w ∈ dfs.started

/-- Vertices an activation starts from. -/
def Call.roots : Call → List String
  | .vertex v => [v]
  | .edges _ ws => ws

/-- What an activation requires of the state it is entered in. -/
def Call.pre {σ : Type} : Call → configInheritanceDFS σ → Prop
  | .vertex v, dfs => v ∉ dfs.started
  | .edges _ _, _ => True

/-- What an activation guarantees besides the common frame. -/
def Call.post {σ : Type} : Call → configInheritanceDFS σ → Nat → configInheritanceDFS σ → Nat → Prop
  | .vertex v, dfs, t, dfs1, t1 => (∃ l, dfs1.finished = dfs.finished ++ l ++ [v]) ∧ t < t1
  | .edges _ ws, _, _, dfs1, _ => ∀ w ∈ ws, w ∈ dfs1.started

/-- Effect of an activation on the lists `finished` and `started`. -/
structure Frame {σ : Type} (g : configInheritanceGraph) (c : Call)
    (dfs : configInheritanceDFS σ) (t : Nat) (dfs1 : configInheritanceDFS σ) (t1 : Nat) : Prop where
  inv : Inv g dfs1
  grow : ∃ new, dfs1.finished = dfs.finished ++ new ∧
    (∀ x ∈ new, x ∉ dfs.started ∧ ∃ r ∈ c.roots, Reach g r x) ∧
    (∀ x, x ∈ dfs1.started ↔ x ∈ dfs.started ∨ x ∈ new)
  time : t ≤ t1
  post : c.post dfs t dfs1 t1

/-- The number of keys not yet started: the recursion depth still needed. -/
def unstarted {σ : Type} (g : configInheritanceGraph) (dfs : configInheritanceDFS σ) : Nat :=
  ((g.map Prod.fst).toFinset \ dfs.started.toFinset).card

/-- The vertex whose body an activation belongs to. -/
def Call.current : Call → String
  | .vertex v => v
  | .edges v _ => v

/-- The targets of a loop activation are edges out of its vertex. -/
def Call.wf (g : configInheritanceGraph) : Call → Prop
  | .vertex _ => True
  | .edges v ws => ∀ w ∈ ws, w ∈ adj g v

/-- What a returning activation guarantees when no back edge was seen. -/
def Call.done {σ : Type} : Call → configInheritanceDFS σ → Prop
  | .vertex _, _ => True
  | .edges _ ws, dfs1 => ∀ w ∈ ws, w ∈ dfs1.finished

/-- Every edge out of a finished vertex leads to a vertex that finished earlier. -/
def Ordered {σ : Type} (g : configInheritanceGraph) (dfs : configInheritanceDFS σ) : Prop :=
  ∀ u ∈ dfs.finished, ∀ w ∈ adj g u,
    w ∈ dfs.finished ∧ dfs.finished.indexOf w < dfs.finished.indexOf u

/-- Executable check that every listed edge target is a key. -/
def targetsChecked (g : configInheritanceGraph) : Bool :=
  g.all (fun p => p.2.all (fun w => isKey g w))

/-- Executable check that every listed edge leads to a name placed earlier in `r`. -/
def rankChecked (g : configInheritanceGraph) (r : List String) : Bool :=
  g.all (fun p => p.2.all (fun w => decide (r.indexOf w < r.indexOf p.1)))

/-- What `HasCycles(start)` returns, as a relation between the graph and the
returned flag `b` and merge order `order`. -/
structure Resolved (g : configInheritanceGraph) (start : String) (b : Bool)
    (order : List String) : Prop where
  nodup : order.Nodup
  mem_iff : ∀ x, x ∈ order ↔ Reach g start x
  last : ∃ l, order = l ++ [start]
  ordered : b = false →
    ∀ u ∈ order, ∀ w ∈ adj g u, w ∈ order ∧ order.indexOf w < order.indexOf u
  cyclic : b = true → ∃ x, Reach g start x ∧ ReachPlus g x x

/-- A chain listed from the resolved entry down to the root: every name has
exactly the next one as its adjacency, and the last one has none. -/
def chainDown (g : configInheritanceGraph) : List String → Bool
  | [] => true
  | [v] => g.lookup v == some []
  | v :: p :: rest => g.lookup v == some [p] && chainDown g (p :: rest)

/-- The Go `error` values that occur: `errors.New`/`fmt.Errorf` texts, and the
path annotations added by the package `go-validate` (an external dependency,
taken to wrap a non-nil error with the property name or the index and to pass
nil through). -/
inductive GoError where
  | text (s : String)
  | property (name : String) (cause : GoError)
  | index (i : Nat) (cause : GoError)
  deriving DecidableEq, Repr

/-- Modelled from the spec: the entry types `Environment` and `Project` are declared
outside the sources at hand; the spec (sections 3 and 6) gives each a way to
enumerate its direct inheritance targets and a `Merge(other)` mutator.  `zero`
is the value `new(T)` the resolver starts from, `merge acc other` the receiver
after `acc.Merge(other)`. -/
structure EntryOps (E : Type) where
  zero : E
  inherits : E → List String
  merge : E → E → E

/-- The types `Environments` and `Projects`: a map from name to entry. -/
abbrev Collection (E : Type) := List (String × E)

/-- Modelled from the spec: the method `inheritanceGraph` of a collection (section
4.1), declared outside the sources at hand: each name is mapped to the names it
directly inherits from, and no referential integrity is checked. -/
def inheritanceGraph {E : Type} (ops : EntryOps E) (c : Collection E) : configInheritanceGraph :=
  c.map (fun p => (p.1, ops.inherits p.2))

/-- The loop `for _, key := range mergeOrder { env.Merge(entries[key]) }`.  An
absent key yields a nil entry, which `Merge` cannot read. -/
def mergeAll {E : Type} (ops : EntryOps E) (c : Collection E) : List String → E → Outcome E
  | [], env => .ok env
  | key :: keys, env =>
    match c.lookup key with
    | none => .nilDeref
    | some other => mergeAll ops c keys (ops.merge env other)

/-- The common body of `Gonew.Environment` and `Gonew.Project`, which differ in the
collection and in the text of the error: presence check, `HasCycles` on the
inheritance graph (the flag is dropped), then the merges.  `Except.error err` is
the return `(nil, err)`, `Except.ok env` the return `(env, nil)`. -/
def resolveEntry {E : Type} (ops : EntryOps E) (unknown : String) (c : Collection E)
    (name : String) : Outcome (Except GoError E) :=
  match c.lookup name with
  | none => .ok (.error (.text (unknown ++ name)))
  | some _ =>
    match HasCycles (inheritanceGraph ops c) name with
    | .ok (_, mergeOrder) =>
      match mergeAll ops c mergeOrder ops.zero with
      | .ok env => .ok (.ok env)
      | .nilDeref => .nilDeref
      | .outOfFuel => .outOfFuel
    | .nilDeref => .nilDeref
    | .outOfFuel => .outOfFuel

/-- The type `Defaults`. -/
structure Defaults where
  Environment : String
  Project : String
  deriving DecidableEq, Repr

/-- The type `Gonew`.  A map field is `none` when it is the nil map. -/
structure Gonew (E P : Type) where
  Default : Defaults
  Environments : Option (Collection E)
  ExternalTemplates : List String
  Projects : Option (Collection P)

/-- The entries of a possibly nil map: indexing or ranging over nil finds nothing. -/
def entries {E : Type} (m : Option (Collection E)) : Collection E := m.getD []

/-- The method `Gonew.Environment`. -/
def Gonew.Environment {E P : Type} (ops : EntryOps E) (config : Gonew E P) (name : String) :
    Outcome (Except GoError E) :=
  resolveEntry ops "unknown environment: " (entries config.Environments) name

/-- The method `Gonew.Project`. -/
def Gonew.Project {E P : Type} (ops : EntryOps P) (config : Gonew E P) (name : String) :
    Outcome (Except GoError P) :=
  resolveEntry ops "unknown project: " (entries config.Projects) name

/-- What `Validate` reads from outside the sources at hand: the entry operations,
the `Validate` methods of the two collections, and the file system as seen by
`os.Stat` (an error, or whether the path is a directory). -/
structure Collaborators (E P : Type) where
  environment : EntryOps E
  project : EntryOps P
  validateEnvironments : Option (Collection E) → Option GoError
  validateProjects : Option (Collection P) → Option GoError
  stat : String → Except GoError Bool

/-- The function `validate.PropertyFunc` (and `validate.Property`, which runs the
`Validate` method of its argument) applied to the error its callback returned. -/
def validate.PropertyFunc (name : String) (err : Option GoError) : Option GoError :=
  err.map (GoError.property name)

/-- The function `validate.Index` applied to the error of the element's `Validate`. -/
def validate.Index (i : Nat) (err : Option GoError) : Option GoError :=
  err.map (GoError.index i)

/-- The method `ExternalTemplate.Validate`. -/
def ExternalTemplate.Validate (stat : String → Except GoError Bool) (path : String) :
    Option GoError :=
  match stat path with
  | .error err => some err
  | .ok isDir => if !isDir then some (.text ("not a directory " ++ path)) else none

/-- The loop over `config.ExternalTemplates` in `Validate`, from index `i` on. -/
def validateTemplates (stat : String → Except GoError Bool) : Nat → List String → Option GoError
  | _, [] => none
  | i, ext :: rest =>
    match validate.Index i (ExternalTemplate.Validate stat ext) with
    | some err => some err
    | none => validateTemplates stat (i + 1) rest

/-- The assignment `_, err = resolve(...)`: the error part of a resolver result. -/
def errorOf {α : Type} : Outcome (Except GoError α) → Outcome (Option GoError)
  | .ok (.error err) => .ok (some err)
  | .ok (.ok _) => .ok none
  | .nilDeref => .nilDeref
  | .outOfFuel => .outOfFuel

/-- The callback of `validate.PropertyFunc("Default", ...)` in `Validate`: both
inner checks are labelled `"Environment"` and guarded by `Default.Environment`,
as in the source. -/
def validateDefault {E P : Type} (col : Collaborators E P) (config : Gonew E P) :
    Outcome (Option GoError) :=
  let first : Outcome (Option GoError) :=
    if config.Default.Environment ≠ "" then
      errorOf (config.Environment col.environment config.Default.Environment)
    else .ok none
  match first with
  | .ok r1 =>
    match validate.PropertyFunc "Environment" r1 with
    | some err => .ok (some err)
    | none =>
      let second : Outcome (Option GoError) :=
        if config.Default.Environment ≠ "" then
          errorOf (config.Project col.project config.Default.Project)
        else .ok none
      match second with
      | .ok r2 => .ok (validate.PropertyFunc "Environment" r2)
      | .nilDeref => .nilDeref
      | .outOfFuel => .outOfFuel
  | .nilDeref => .nilDeref
  | .outOfFuel => .outOfFuel

/-- The two `Projects` checks of `Validate`: the value of `err` after them. -/
def projectsError {E P : Type} (col : Collaborators E P) (config : Gonew E P) :
    Option GoError :=
  let err := validate.PropertyFunc "Projects"
    (match config.Projects with
     | none => some (.text "missing")
     | some _ => none)
  if err.isNone then validate.PropertyFunc "Projects" (col.validateProjects config.Projects)
  else err

/-- The method `Gonew.Validate`.  After the `Projects` checks the source has no
`if err != nil { return }`: the next statement assigns `err` again. -/
def Gonew.Validate {E P : Type} (col : Collaborators E P) (config : Gonew E P) :
    Outcome (Option GoError) :=
  let err := validate.PropertyFunc "Environments"
    (match config.Environments with
     | none => some (.text "missing")
     | some c => if c.length = 0 then some (.text "empty") else none)
  let err := if err.isNone then
      validate.PropertyFunc "Environments" (col.validateEnvironments config.Environments)
    else err
  if err.isSome then .ok err
  else
    let err := validate.PropertyFunc "ExternalTemplates"
      (validateTemplates col.stat 0 config.ExternalTemplates)
    if err.isSome then .ok err
    else
      let _err := projectsError col config
      match validateDefault col config with
      | .ok r => .ok (validate.PropertyFunc "Default" r)
      | .nilDeref => .nilDeref
      | .outOfFuel => .outOfFuel

/-- An entry type for concrete evaluations: inheritance targets and one field,
merged so that the argument's non-empty field wins. -/
structure SampleEntry where
  Inherits : List String
  F : String
  deriving DecidableEq, Repr

/-- The operations of `SampleEntry`. -/
def sampleOps : EntryOps SampleEntry :=
  { zero := ⟨[], ""⟩
    inherits := fun e => e.Inherits
    merge := fun acc other =>
      { Inherits := acc.Inherits ++ other.Inherits
        F := if other.F = "" then acc.F else other.F } }

/-- Collaborators for concrete evaluations: the collections validate, and every
path is an existing directory. -/
def sampleCollaborators : Collaborators SampleEntry SampleEntry :=
  { environment := sampleOps
    project := sampleOps
    validateEnvironments := fun _ => none
    validateProjects := fun _ => none
    stat := fun _ => .ok true }

/-- The three-level scenario: `base`, `staging` (parent `base`), `prod` (parent `staging`). -/
def threeLevel : configInheritanceGraph :=
  [("prod", ["staging"]), ("staging", ["base"]), ("base", [])]

/-- The nearest non-empty value of the field `F`, walking along `keys`; `d` when
no listed entry sets it. -/
def nearest {E : Type} (F : E → String) (c : Collection E) (d : String) : List String → String
  | [] => d
  | k :: ks =>
    match c.lookup k with
    | some e => if F e = "" then nearest F c d ks else F e
    | none => nearest F c d ks

/-- A graph with two independent branches: `app` inherits from `web` and `db`,
which both inherit from `base`. -/
def diamond : configInheritanceGraph :=
  [("app", ["web", "db"]), ("web", ["base"]), ("db", ["base"]), ("base", [])]

/-- A graph with a cycle through the start vertex `a`, and a vertex `c` off the cycle. -/
def looped : configInheritanceGraph :=
  [("a", ["b"]), ("b", ["a", "c"]), ("c", [])]

/-- A parent `P` with `F = "base"` and a child `C` inheriting from it with `F = childF`. -/
def parentChild (childF : String) : Gonew SampleEntry SampleEntry :=
  { Default := ⟨"", ""⟩
    Environments := some [("C", ⟨["P"], childF⟩), ("P", ⟨[], "base"⟩)]
    ExternalTemplates := []
    Projects := none }

/-- Two entries inheriting from each other. -/
def twoCycle : Collection SampleEntry :=
  [("a", ⟨["b"], "x"⟩), ("b", ⟨["a"], "y"⟩)]

/-- A configuration whose `Environments` and `ExternalTemplates` validate, whose
`Projects` map is nil, and whose `Default` names nothing. -/
def noProjects : Gonew SampleEntry SampleEntry :=
  { Default := ⟨"", ""⟩
    Environments := some [("dev", ⟨[], ""⟩)]
    ExternalTemplates := []
    Projects := none }

/-- A valid configuration whose `Default` names only a project, and one that is
not a key of `Projects`. -/
def defaultProjectOnly : Gonew SampleEntry SampleEntry :=
  { Default := ⟨"", "ghost"⟩
    Environments := some [("dev", ⟨[], ""⟩)]
    ExternalTemplates := []
    Projects := some [("app", ⟨[], ""⟩)] }

/-- A valid configuration whose `Default` names only an environment, which exists. -/
def defaultEnvironmentOnly : Gonew SampleEntry SampleEntry :=
  { Default := ⟨"dev", ""⟩
    Environments := some [("dev", ⟨[], ""⟩)]
    ExternalTemplates := []
    Projects := some [("app", ⟨[], ""⟩)] }

/-- A configuration whose `Default.Environment` is `staging`, which is not a key
of `Environments`. -/
def unknownDefault : Gonew SampleEntry SampleEntry :=
  { Default := ⟨"staging", ""⟩
    Environments := some [("dev", ⟨[], ""⟩)]
    ExternalTemplates := []
    Projects := some [("app", ⟨[], ""⟩)] }

/-- The start timestamp `log[v].start`, read as `0` where the log has no entry. -/
def startOf (log : configInheritanceDFSLog) (v : String) : Nat :=
  match log v with
  | some e => e.start
  | none => 0

/-- The finish timestamp `log[v].finish`, read as `0` where the log has no entry. -/
def finishOf (log : configInheritanceDFSLog) (v : String) : Nat :=
  match log v with
  | some e => e.finish
  | none => 0

/-- The traversal state with a fresh log and empty lists, as `HasCycles` builds it,
for any initial value of the captured variables. -/
def freshState {σ : Type} (g : configInheritanceGraph) (c : σ) : configInheritanceDFS σ :=
  { log := makeConfigInheritanceDFSLog g, finished := [], started := [], captured := c }

/-- The last timestamp handed out when an activation is entered with counter `t`:
`visit(t, v)` is about to use `t` itself, the loop has used `t` already. -/
def Call.clock : Call → Nat → Nat
  | .vertex _, t => t - 1
  | .edges _ _, t => t

/-- The timestamps of a traversal state when `k` is the last timestamp handed
out: every started vertex has a start stamp and every finished vertex a larger
finish stamp, the stamps are pairwise distinct, they are exactly `1, ..., k`, and
no vertex was started twice. -/
structure Stamps {σ : Type} (dfs : configInheritanceDFS σ) (k : Nat) : Prop where
  sb : ∀ v ∈ dfs.started, 1 ≤ startOf dfs.log v ∧ startOf dfs.log v ≤ k
  fb : ∀ v ∈ dfs.finished, startOf dfs.log v < finishOf dfs.log v ∧ finishOf dfs.log v ≤ k
  si : ∀ u ∈ dfs.started, ∀ v ∈ dfs.started, startOf dfs.log u = startOf dfs.log v → u = v
  fi : ∀ u ∈ dfs.finished, ∀ v ∈ dfs.finished,
    finishOf dfs.log u = finishOf dfs.log v → u = v
  sf : ∀ u ∈ dfs.started, ∀ v ∈ dfs.finished, startOf dfs.log u ≠ finishOf dfs.log v
  onto : ∀ j, 1 ≤ j → j ≤ k →
    (∃ v ∈ dfs.started, startOf dfs.log v = j) ∨ (∃ v ∈ dfs.finished, finishOf dfs.log v = j)
  count : dfs.started.length + dfs.finished.length = k
  snodup : dfs.started.Nodup

/-- The invariant of the traversal log stated in the data model: an entry without a
start stamp has no finish stamp, and an entry with a finish stamp has a smaller,
non-zero start stamp. -/
def LogOK (log : configInheritanceDFSLog) : Prop :=
  ∀ v e, log v = some e →
    (e.start = 0 → e.finish = 0) ∧ (e.finish ≠ 0 → e.start ≠ 0) ∧
      (e.finish ≠ 0 → 0 < e.start ∧ e.start < e.finish)

/-- The states a traversal passes through: `During g obs c dfs t s` when the
activation `c`, entered in state `dfs` with counter `t`, is in state `s` at some
point: on entry, after a start step, inside or after a recursive call, after an
observer call, or after its finish step.  The activation need not return. -/
inductive During {σ : Type} (g : configInheritanceGraph) (obs : Observers σ) :
    Call → configInheritanceDFS σ → Nat → configInheritanceDFS σ → Prop
  | here (c : Call) (dfs : configInheritanceDFS σ) (t : Nat) : During g obs c dfs t dfs
  | inTree (v w : String) (ws : List String) (dfs s : configInheritanceDFS σ) (t : Nat)
      (e : LogEntry) :
      dfs.log w = some e → e.start = 0 →
      During g obs (.vertex w) (fireEdge obs.onTree v w dfs) (t + 1) s →
      During g obs (.edges v (w :: ws)) dfs t s
  | afterTree (v w : String) (ws : List String) (dfs dfs1 s : configInheritanceDFS σ)
      (t t1 : Nat) (e : LogEntry) :
      dfs.log w = some e → e.start = 0 →
      Run g obs (.vertex w) (fireEdge obs.onTree v w dfs) (t + 1) dfs1 t1 →
      During g obs (.edges v ws) dfs1 t1 s →
      During g obs (.edges v (w :: ws)) dfs t s
  | afterBack (v w : String) (ws : List String) (dfs s : configInheritanceDFS σ) (t : Nat)
      (e : LogEntry) :
      dfs.log w = some e → e.start ≠ 0 → e.finish = 0 →
      During g obs (.edges v ws) (fireEdge obs.onBack v w dfs) t s →
      During g obs (.edges v (w :: ws)) dfs t s
  | afterCross (v w : String) (ws : List String) (dfs s : configInheritanceDFS σ) (t : Nat)
      (e : LogEntry) :
      dfs.log w = some e → e.start ≠ 0 → e.finish ≠ 0 →
      During g obs (.edges v ws) (fireEdge obs.onCross v w dfs) t s →
      During g obs (.edges v (w :: ws)) dfs t s
  | inBody (v : String) (dfs s : configInheritanceDFS σ) (t : Nat) (e : LogEntry) :
      dfs.log v = some e →
      During g obs (.edges v (adj g v))
        (fireVertex obs.onStart v
          { dfs with log := setStart dfs.log v e t, started := dfs.started ++ [v] }) t s →
      During g obs (.vertex v) dfs t s
  | atExit (v : String) (dfs dfs2 : configInheritanceDFS σ) (t t2 : Nat) (e e2 : LogEntry) :
      dfs.log v = some e →
      Run g obs (.edges v (adj g v))
        (fireVertex obs.onStart v
          { dfs with log := setStart dfs.log v e t, started := dfs.started ++ [v] }) t dfs2 t2 →
      dfs2.log v = some e2 →
      During g obs (.vertex v) dfs t
        (fireVertex obs.onFinish v
          { dfs2 with log := setFinish dfs2.log v e2 (t2 + 1),
                      finished := dfs2.finished ++ [v] })

/-- Observers that record, in order, the edges `onBack` is called with. -/
def recordingObservers : Observers (List (String × String)) :=
  { onBack := some (fun v w seen => seen ++ [(v, w)]), onTree := none, onCross := none,
    onFinish := none, onStart := none }

/-- Every edge out of a vertex reachable from `start` leads to a key. -/
def ClosedFrom (g : configInheritanceGraph) (start : String) : Prop :=
  ∀ v w, Reach g start v → w ∈ adj g v → isKey g w = true

section Lemmas

variable {σ : Type} {g : configInheritanceGraph} {obs : Observers σ}

@[simp] theorem fireEdge_log (f : Option (String → String → σ → σ)) (v w : String)
    (dfs : configInheritanceDFS σ) : (fireEdge f v w dfs).log = dfs.log := by
  cases f <;> rfl

@[simp] theorem fireEdge_finished (f : Option (String → String → σ → σ)) (v w : String)
    (dfs : configInheritanceDFS σ) : (fireEdge f v w dfs).finished = dfs.finished := by
  cases f <;> rfl

@[simp] theorem fireEdge_started (f : Option (String → String → σ → σ)) (v w : String)
    (dfs : configInheritanceDFS σ) : (fireEdge f v w dfs).started = dfs.started := by
  cases f <;> rfl

@[simp] theorem fireVertex_log (f : Option (String → σ → σ)) (v : String)
    (dfs : configInheritanceDFS σ) : (fireVertex f v dfs).log = dfs.log := by
  cases f <;> rfl

@[simp] theorem fireVertex_finished (f : Option (String → σ → σ)) (v : String)
    (dfs : configInheritanceDFS σ) : (fireVertex f v dfs).finished = dfs.finished := by
  cases f <;> rfl

@[simp] theorem fireVertex_started (f : Option (String → σ → σ)) (v : String)
    (dfs : configInheritanceDFS σ) : (fireVertex f v dfs).started = dfs.started := by
  cases f <;> rfl

/-- The invariant only reads the log and the two lists. -/
theorem Inv.congr {dfs dfs1 : configInheritanceDFS σ} (h : Inv g dfs)
    (hl : dfs1.log = dfs.log) (hf : dfs1.finished = dfs.finished)
    (hs : dfs1.started = dfs.started) : Inv g dfs1 := by
  constructor
  · rw [hl]; exact h.dom
  · rw [hl, hs]; exact h.st
  · rw [hl, hf]; exact h.fi
  · rw [hf, hs]; exact h.sub
  · rw [hs]; exact h.keys
  · rw [hf]; exact h.nodup
  · rw [hf, hs]; exact h.clos

/-- A returning `visitEdges` is a `Run`, when the recursive calls are. -/
theorem visitEdges_run
    {recur : configInheritanceDFS σ → Nat → String → Outcome (configInheritanceDFS σ × Nat)}
    (hrec : ∀ dfs t w dfs1 t1, recur dfs t w = .ok (dfs1, t1) → Run g obs (.vertex w) dfs t dfs1 t1)
    (v : String) (ws : List String) :
    ∀ (dfs : configInheritanceDFS σ) (t : Nat) (dfs2 : configInheritanceDFS σ) (t2 : Nat),
      visitEdges obs recur v ws dfs t = .ok (dfs2, t2) → Run g obs (.edges v ws) dfs t dfs2 t2 := by
  induction ws with
  | nil =>
    intro dfs t dfs2 t2 h
    simp only [visitEdges, Outcome.ok.injEq, Prod.mk.injEq] at h
    obtain ⟨rfl, rfl⟩ := h
    exact Run.done v dfs t
  | cons w ws ih =>
    intro dfs t dfs2 t2 h
    unfold visitEdges at h
    cases hw : dfs.log w with
    | none => simp [hw] at h
    | some e =>
      simp only [hw] at h
      by_cases h0 : e.start = 0
      · simp only [h0, if_true] at h
        cases hr : recur (fireEdge obs.onTree v w dfs) (t + 1) w with
        | ok r =>
          obtain ⟨dfs1, t1⟩ := r
          simp only [hr] at h
          exact Run.tree v w ws dfs dfs1 dfs2 t t1 t2 e hw h0 (hrec _ _ _ _ _ hr) (ih _ _ _ _ h)
        | nilDeref => simp [hr] at h
        | outOfFuel => simp [hr] at h
      · simp only [h0, if_false] at h
        by_cases h1 : e.finish = 0
        · simp only [h1, if_true] at h
          exact Run.back v w ws dfs dfs2 t t2 e hw h0 h1 (ih _ _ _ _ h)
        · simp only [h1, if_false] at h
          exact Run.cross v w ws dfs dfs2 t t2 e hw h0 h1 (ih _ _ _ _ h)

/-- A returning `visit` is a `Run`. -/
theorem visit_run (fuel : Nat) :
    ∀ (dfs : configInheritanceDFS σ) (t : Nat) (v : String) (dfs2 : configInheritanceDFS σ)
      (t2 : Nat), visit g obs fuel dfs t v = .ok (dfs2, t2) → Run g obs (.vertex v) dfs t dfs2 t2 := by
  induction fuel with
  | zero => intro dfs t v dfs2 t2 h; simp [visit] at h
  | succ n ih =>
    intro dfs t v dfs2 t2 h
    unfold visit at h
    cases hv : dfs.log v with
    | none => simp [hv] at h
    | some e =>
      simp only [hv] at h
      cases hr : visitEdges obs (visit g obs n) v (adj g v)
          (fireVertex obs.onStart v
            { dfs with log := setStart dfs.log v e t, started := dfs.started ++ [v] }) t with
      | ok r =>
        obtain ⟨dfs1, t1⟩ := r
        simp only [hr] at h
        cases hv2 : dfs1.log v with
        | none => simp [hv2] at h
        | some e2 =>
          simp only [hv2, Outcome.ok.injEq, Prod.mk.injEq] at h
          obtain ⟨rfl, rfl⟩ := h
          exact Run.visit v dfs dfs1 t t1 e e2 hv (visitEdges_run ih v _ _ _ _ _ hr) hv2
      | nilDeref => simp [hr] at h
      | outOfFuel => simp [hr] at h

/-- Marking `v` started keeps the state consistent, for a non-zero counter. -/
theorem Inv.start {dfs : configInheritanceDFS σ} (h : Inv g dfs) {v : String} {e : LogEntry}
    (hv : dfs.log v = some e) {t : Nat} (ht : 1 ≤ t) :
    Inv g (fireVertex obs.onStart v
      { dfs with log := setStart dfs.log v e t, started := dfs.started ++ [v] }) := by
  have hk : isKey g v = true := (h.dom v).1 (by simp [hv])
  constructor
  · intro x
    simp only [fireVertex_log, setStart]
    by_cases hx : x = v
    · subst hx; simp [hk]
    · simp only [hx, if_false]; exact h.dom x
  · intro x e1 he1
    simp only [fireVertex_log, setStart, fireVertex_started] at he1 ⊢
    by_cases hx : x = v
    · subst hx
      simp only [if_true, Option.some.injEq] at he1
      subst he1
      simp; omega
    · simp only [hx, if_false] at he1
      simp [hx, h.st x e1 he1]
  · intro x e1 he1
    simp only [fireVertex_log, setStart, fireVertex_finished] at he1 ⊢
    by_cases hx : x = v
    · subst hx
      simp only [if_true, Option.some.injEq] at he1
      subst he1
      exact h.fi x e hv
    · simp only [hx, if_false] at he1
      exact h.fi x e1 he1
  · intro x hx
    simp only [fireVertex_finished, fireVertex_started] at hx ⊢
    exact List.mem_append_left _ (h.sub x hx)
  · intro x hx
    simp only [fireVertex_started, List.mem_append, List.mem_singleton] at hx
    rcases hx with hx | rfl
    · exact h.keys x hx
    · exact hk
  · simpa using h.nodup
  · intro u hu w hw
    simp only [fireVertex_finished, fireVertex_started] at hu ⊢
    exact List.mem_append_left _ (h.clos u hu w hw)

/-- Marking `v` finished keeps the state consistent, when `v` was started, has
not finished, and all its edges lead to started vertices. -/
theorem Inv.finish {dfs : configInheritanceDFS σ} (h : Inv g dfs) {v : String} {e : LogEntry}
    (hv : dfs.log v = some e) (t : Nat) (hs : v ∈ dfs.started) (hf : v ∉ dfs.finished)
    (hadj : ∀ w ∈ adj g v, w ∈ dfs.started) :
    Inv g (fireVertex obs.onFinish v
      { dfs with log := setFinish dfs.log v e (t + 1), finished := dfs.finished ++ [v] }) := by
  have hk : isKey g v = true := (h.dom v).1 (by simp [hv])
  constructor
  · intro x
    simp only [fireVertex_log, setFinish]
    by_cases hx : x = v
    · subst hx; simp [hk]
    · simp only [hx, if_false]; exact h.dom x
  · intro x e1 he1
    simp only [fireVertex_log, setFinish, fireVertex_started] at he1 ⊢
    by_cases hx : x = v
    · subst hx
      simp only [if_true, Option.some.injEq] at he1
      subst he1
      exact h.st x e hv
    · simp only [hx, if_false] at he1
      exact h.st x e1 he1
  · intro x e1 he1
    simp only [fireVertex_log, setFinish, fireVertex_finished] at he1 ⊢
    by_cases hx : x = v
    · subst hx
      simp only [if_true, Option.some.injEq] at he1
      subst he1
      simp
    · simp only [hx, if_false] at he1
      simp [hx, h.fi x e1 he1]
  · intro x hx
    simp only [fireVertex_finished, fireVertex_started, List.mem_append,
      List.mem_singleton] at hx ⊢
    rcases hx with hx | rfl
    · exact h.sub x hx
    · exact hs
  · intro x hx
    simp only [fireVertex_started] at hx
    exact h.keys x hx
  · simp only [fireVertex_finished]
    exact List.Nodup.append h.nodup (List.nodup_singleton v) (by simpa using hf)
  · intro u hu w hw
    simp only [fireVertex_finished, fireVertex_started, List.mem_append,
      List.mem_singleton] at hu ⊢
    rcases hu with hu | rfl
    · exact h.clos u hu w hw
    · exact hadj w hw

/-- Every returning activation entered in a consistent state with a non-zero
counter leaves a consistent state, appends to `finished` only vertices that were
unstarted and are reachable from its roots, and starts exactly those. -/
theorem Run.frame {c : Call} {dfs dfs1 : configInheritanceDFS σ} {t t1 : Nat}
    (h : Run g obs c dfs t dfs1 t1) :
    Inv g dfs → 1 ≤ t → c.pre dfs → Frame g c dfs t dfs1 t1 := by
  induction h with
  | done v dfs t =>
    intro hinv _ _
    exact ⟨hinv, ⟨[], by simp, by simp, by simp⟩, le_refl _, by simp [Call.post]⟩
  | tree v w ws dfs dfs1 dfs2 t t1 t2 e hw h0 _ _ ih1 ih2 =>
    intro hinv ht _
    have hwn : w ∉ dfs.started := fun hm => ((hinv.st w e hw).2 hm) h0
    have f1 := ih1 (hinv.congr (by simp) (by simp) (by simp)) (by omega)
      (by simpa [Call.pre] using hwn)
    have f2 := ih2 f1.inv (by have := f1.time; omega) trivial
    obtain ⟨n1, hn1, hn1p, hn1s⟩ := f1.grow
    obtain ⟨n2, hn2, hn2p, hn2s⟩ := f2.grow
    simp only [fireEdge_finished, fireEdge_started] at hn1 hn1p hn1s
    obtain ⟨⟨l, hl⟩, _⟩ := f1.post
    simp only [fireEdge_finished] at hl
    have hwn1 : w ∈ n1 := by
      have : dfs.finished ++ n1 = dfs.finished ++ (l ++ [w]) := by
        rw [← hn1, hl, List.append_assoc]
      have := List.append_cancel_left this
      simp [this]
    refine ⟨f2.inv, ⟨n1 ++ n2, ?_, ?_, ?_⟩, ?_, ?_⟩
    · rw [hn2, hn1, List.append_assoc]
    · intro x hx
      rcases List.mem_append.1 hx with hx | hx
      · obtain ⟨a, r, hr, hreach⟩ := hn1p x hx
        simp only [Call.roots, List.mem_singleton] at hr
        subst hr
        exact ⟨a, r, by simp [Call.roots], hreach⟩
      · obtain ⟨a, r, hr, hreach⟩ := hn2p x hx
        refine ⟨fun hm => a ((hn1s x).2 (Or.inl hm)), r, ?_, hreach⟩
        simp only [Call.roots] at hr ⊢
        exact List.mem_cons_of_mem _ hr
    · intro x
      rw [hn2s, hn1s, List.mem_append, or_assoc]
    · have := f1.time; have := f2.time; omega
    · intro x hx
      rcases List.mem_cons.1 hx with rfl | hx
      · exact (hn2s x).2 (Or.inl ((hn1s x).2 (Or.inr hwn1)))
      · exact f2.post x hx
  | back v w ws dfs dfs2 t t2 e hw h0 _ _ ih =>
    intro hinv ht _
    have f := ih (hinv.congr (by simp) (by simp) (by simp)) ht trivial
    obtain ⟨n, hn, hnp, hns⟩ := f.grow
    simp only [fireEdge_finished, fireEdge_started] at hn hnp hns
    refine ⟨f.inv, ⟨n, hn, ?_, hns⟩, f.time, ?_⟩
    · intro x hx
      obtain ⟨a, r, hr, hreach⟩ := hnp x hx
      exact ⟨a, r, List.mem_cons_of_mem _ hr, hreach⟩
    · intro x hx
      rcases List.mem_cons.1 hx with rfl | hx
      · exact (hns x).2 (Or.inl ((hinv.st x e hw).1 h0))
      · exact f.post x hx
  | cross v w ws dfs dfs2 t t2 e hw h0 _ _ ih =>
    intro hinv ht _
    have f := ih (hinv.congr (by simp) (by simp) (by simp)) ht trivial
    obtain ⟨n, hn, hnp, hns⟩ := f.grow
    simp only [fireEdge_finished, fireEdge_started] at hn hnp hns
    refine ⟨f.inv, ⟨n, hn, ?_, hns⟩, f.time, ?_⟩
    · intro x hx
      obtain ⟨a, r, hr, hreach⟩ := hnp x hx
      exact ⟨a, r, List.mem_cons_of_mem _ hr, hreach⟩
    · intro x hx
      rcases List.mem_cons.1 hx with rfl | hx
      · exact (hns x).2 (Or.inl ((hinv.st x e hw).1 h0))
      · exact f.post x hx
  | visit v dfs dfs2 t t2 e e2 hv _ hv2 ih =>
    intro hinv ht hpre
    have hvn : v ∉ dfs.started := hpre
    have f := ih (hinv.start hv ht) ht trivial
    obtain ⟨n, hn, hnp, hns⟩ := f.grow
    simp only [fireVertex_finished, fireVertex_started, List.mem_append,
      List.mem_singleton, not_or] at hn hnp hns
    have hvs : v ∈ dfs2.started := (hns v).2 (Or.inl (Or.inr rfl))
    have hvf : v ∉ dfs2.finished := by
      rw [hn, List.mem_append]
      rintro (hm | hm)
      · exact hvn (hinv.sub v hm)
      · exact (hnp v hm).1.2 rfl
    refine ⟨f.inv.finish hv2 t2 hvs hvf f.post, ⟨n ++ [v], ?_, ?_, ?_⟩, ?_, ?_⟩
    · simp [hn]
    · intro x hx
      rcases List.mem_append.1 hx with hx | hx
      · obtain ⟨⟨a, _⟩, r, hr, hreach⟩ := hnp x hx
        exact ⟨a, v, by simp [Call.roots], Relation.ReflTransGen.head hr hreach⟩
      · rw [List.mem_singleton] at hx
        subst hx
        exact ⟨hvn, x, by simp [Call.roots], Relation.ReflTransGen.refl⟩
    · intro x
      simp only [fireVertex_started, List.mem_append, List.mem_singleton]
      rw [hns]
      tauto
    · have := f.time; omega
    · refine ⟨⟨n, ?_⟩, ?_⟩
      · simp [hn]
      · have := f.time; omega

theorem isKey_iff_mem (g : configInheritanceGraph) (v : String) :
    isKey g v = true ↔ v ∈ g.map Prod.fst := by
  induction g with
  | nil => simp [isKey]
  | cons p g ih =>
    obtain ⟨k, a⟩ := p
    by_cases hk : v = k
    · subst hk; simp [isKey, List.lookup]
    · have hb : (v == k) = false := by simpa using hk
      simp only [isKey, List.lookup, hb, List.map_cons, List.mem_cons, hk, false_or]
      exact ih

theorem unstarted_mono {dfs dfs1 : configInheritanceDFS σ}
    (h : ∀ x ∈ dfs.started, x ∈ dfs1.started) : unstarted g dfs1 ≤ unstarted g dfs := by
  unfold unstarted
  apply Finset.card_le_card
  intro x hx
  simp only [Finset.mem_sdiff, List.mem_toFinset] at hx ⊢
  exact ⟨hx.1, fun hm => hx.2 (h x hm)⟩

theorem unstarted_start {dfs dfs1 : configInheritanceDFS σ} {v : String}
    (hk : isKey g v = true) (hv : v ∉ dfs.started) (h : dfs1.started = dfs.started ++ [v]) :
    unstarted g dfs1 < unstarted g dfs := by
  unfold unstarted
  apply Finset.card_lt_card
  rw [Finset.ssubset_iff_of_subset]
  · refine ⟨v, ?_, ?_⟩
    · simp only [Finset.mem_sdiff, List.mem_toFinset]
      exact ⟨(isKey_iff_mem g v).1 hk, hv⟩
    · simp [h]
  · intro x hx
    simp only [Finset.mem_sdiff, List.mem_toFinset, h, List.mem_append, not_or] at hx ⊢
    exact ⟨hx.1, hx.2.1⟩

theorem unstarted_init_le (g : configInheritanceGraph) (dfs : configInheritanceDFS σ) :
    unstarted g dfs ≤ g.length := by
  unfold unstarted
  calc ((g.map Prod.fst).toFinset \ dfs.started.toFinset).card
      ≤ (g.map Prod.fst).toFinset.card := Finset.card_le_card Finset.sdiff_subset
    _ ≤ (g.map Prod.fst).length := List.toFinset_card_le _
    _ = g.length := by simp

/-- The loop returns or panics, but does not exhaust the budget, when the
recursive calls do not; and it does not panic when all targets are keys. -/
theorem visitEdges_returns
    {recur : configInheritanceDFS σ → Nat → String → Outcome (configInheritanceDFS σ × Nat)}
    {n : Nat}
    (hrun : ∀ dfs t w dfs1 t1, recur dfs t w = .ok (dfs1, t1) → Run g obs (.vertex w) dfs t dfs1 t1)
    (hrec : ∀ dfs t w, Inv g dfs → 1 ≤ t → w ∉ dfs.started → unstarted g dfs < n →
      recur dfs t w ≠ .outOfFuel ∧
        (TargetsAreKeys g → isKey g w = true → recur dfs t w ≠ .nilDeref))
    (v : String) (ws : List String) :
    ∀ (dfs : configInheritanceDFS σ) (t : Nat), Inv g dfs → 1 ≤ t → unstarted g dfs < n →
      visitEdges obs recur v ws dfs t ≠ .outOfFuel ∧
        (TargetsAreKeys g → (∀ w ∈ ws, isKey g w = true) →
          visitEdges obs recur v ws dfs t ≠ .nilDeref) := by
  induction ws with
  | nil => intro dfs t _ _ _; simp [visitEdges]
  | cons w ws ih =>
    intro dfs t hinv ht hn
    unfold visitEdges
    cases hw : dfs.log w with
    | none =>
      refine ⟨by simp, fun _ hk => ?_⟩
      exact absurd hw ((hinv.dom w).2 (hk w (List.mem_cons_self _ _)))
    | some e =>
      simp only
      by_cases h0 : e.start = 0
      · simp only [h0, if_true]
        have hwn : w ∉ dfs.started := fun hm => ((hinv.st w e hw).2 hm) h0
        have hi0 : Inv g (fireEdge obs.onTree v w dfs) :=
          hinv.congr (by simp) (by simp) (by simp)
        have hu0 : unstarted g (fireEdge obs.onTree v w dfs) < n :=
          lt_of_le_of_lt (unstarted_mono (by simp)) hn
        have hr := hrec (fireEdge obs.onTree v w dfs) (t + 1) w hi0 (by omega)
          (by simpa using hwn) hu0
        cases hc : recur (fireEdge obs.onTree v w dfs) (t + 1) w with
        | ok r =>
          obtain ⟨dfs1, t1⟩ := r
          simp only
          have f := (hrun _ _ _ _ _ hc).frame hi0 (by omega) (by simpa [Call.pre] using hwn)
          obtain ⟨m, _, _, hms⟩ := f.grow
          have hu1 : unstarted g dfs1 < n :=
            lt_of_le_of_lt (unstarted_mono (fun x hx => (hms x).2 (Or.inl hx))) hu0
          have := ih dfs1 t1 f.inv (by have := f.time; omega) hu1
          exact ⟨this.1, fun hg hk => this.2 hg (fun x hx => hk x (List.mem_cons_of_mem _ hx))⟩
        | nilDeref =>
          refine ⟨by simp, fun hg hk => ?_⟩
          exact absurd hc (hr.2 hg (hk w (List.mem_cons_self _ _)))
        | outOfFuel => exact absurd hc hr.1
      · simp only [h0, if_false]
        by_cases h1 : e.finish = 0
        · simp only [h1, if_true]
          have := ih (fireEdge obs.onBack v w dfs) t (hinv.congr (by simp) (by simp) (by simp))
            ht (lt_of_le_of_lt (unstarted_mono (by simp)) hn)
          exact ⟨this.1, fun hg hk => this.2 hg (fun x hx => hk x (List.mem_cons_of_mem _ hx))⟩
        · simp only [h1, if_false]
          have := ih (fireEdge obs.onCross v w dfs) t (hinv.congr (by simp) (by simp) (by simp))
            ht (lt_of_le_of_lt (unstarted_mono (by simp)) hn)
          exact ⟨this.1, fun hg hk => this.2 hg (fun x hx => hk x (List.mem_cons_of_mem _ hx))⟩

/-- Termination of `visit`: a budget larger than the number of unstarted keys is
never exhausted; and the call does not panic when all edge targets are keys and
`v` is a key. -/
theorem visit_returns (n : Nat) :
    ∀ (dfs : configInheritanceDFS σ) (t : Nat) (v : String), Inv g dfs → 1 ≤ t →
      v ∉ dfs.started → unstarted g dfs < n →
      visit g obs n dfs t v ≠ .outOfFuel ∧
        (TargetsAreKeys g → isKey g v = true → visit g obs n dfs t v ≠ .nilDeref) := by
  induction n with
  | zero => intro dfs t v _ _ _ h; omega
  | succ n ih =>
    intro dfs t v hinv ht hvn hn
    unfold visit
    cases hv : dfs.log v with
    | none =>
      refine ⟨by simp, fun _ hk => ?_⟩
      exact absurd hv ((hinv.dom v).2 hk)
    | some e =>
      simp only
      have hk : isKey g v = true := (hinv.dom v).1 (by simp [hv])
      have hi1 := @Inv.start σ g obs dfs hinv v e hv t ht
      have hu1 : unstarted g (fireVertex obs.onStart v
          { dfs with log := setStart dfs.log v e t, started := dfs.started ++ [v] }) < n := by
        have := @unstarted_start σ g dfs (fireVertex obs.onStart v
          { dfs with log := setStart dfs.log v e t, started := dfs.started ++ [v] }) v hk hvn
            (by simp)
        omega
      have hr := @visitEdges_returns σ g obs _ n (fun _ _ _ _ _ h => visit_run n _ _ _ _ _ h)
        ih v (adj g v) _ t hi1 ht hu1
      cases hc : visitEdges obs (visit g obs n) v (adj g v)
          (fireVertex obs.onStart v
            { dfs with log := setStart dfs.log v e t, started := dfs.started ++ [v] }) t with
      | ok r =>
        obtain ⟨dfs2, t2⟩ := r
        simp only
        have f := (visitEdges_run (fun _ _ _ _ _ h => visit_run n _ _ _ _ _ h) v _ _ _ _ _ hc).frame
          hi1 ht trivial
        cases hv2 : dfs2.log v with
        | none => exact absurd hv2 ((f.inv.dom v).2 hk)
        | some e2 => simp
      | nilDeref =>
        refine ⟨by simp, fun hg _ => ?_⟩
        exact absurd hc (hr.2 hg (fun w hw => hg v w hw))
      | outOfFuel => exact absurd hc hr.1

/-- The loop does not depend on the budget of its recursive calls once they return. -/
theorem visitEdges_fuel
    {r1 r2 : configInheritanceDFS σ → Nat → String → Outcome (configInheritanceDFS σ × Nat)}
    (h12 : ∀ dfs t w, r1 dfs t w ≠ .outOfFuel → r2 dfs t w = r1 dfs t w)
    (v : String) (ws : List String) :
    ∀ (dfs : configInheritanceDFS σ) (t : Nat), visitEdges obs r1 v ws dfs t ≠ .outOfFuel →
      visitEdges obs r2 v ws dfs t = visitEdges obs r1 v ws dfs t := by
  induction ws with
  | nil => intro dfs t _; simp [visitEdges]
  | cons w ws ih =>
    intro dfs t h
    unfold visitEdges at h ⊢
    cases hw : dfs.log w with
    | none => rfl
    | some e =>
      simp only [hw] at h ⊢
      by_cases h0 : e.start = 0
      · simp only [h0, if_true] at h ⊢
        cases hc : r1 (fireEdge obs.onTree v w dfs) (t + 1) w with
        | ok r =>
          rw [h12 _ _ _ (by simp [hc]), hc]
          simp only [hc] at h
          exact ih _ _ h
        | nilDeref => rw [h12 _ _ _ (by simp [hc]), hc]
        | outOfFuel => simp [hc] at h
      · simp only [h0, if_false] at h ⊢
        by_cases h1 : e.finish = 0
        · simp only [h1, if_true] at h ⊢
          exact ih _ _ h
        · simp only [h1, if_false] at h ⊢
          exact ih _ _ h

/-- A larger budget does not change the result of a `visit` that did not exhaust
its budget. -/
theorem visit_fuel (n : Nat) :
    ∀ (dfs : configInheritanceDFS σ) (t : Nat) (v : String),
      visit g obs n dfs t v ≠ .outOfFuel → visit g obs (n + 1) dfs t v = visit g obs n dfs t v := by
  induction n with
  | zero => intro dfs t v h; simp [visit] at h
  | succ n ih =>
    intro dfs t v h
    rw [visit.eq_def g obs (n + 1 + 1), visit.eq_def g obs (n + 1)] at *
    simp only at h ⊢
    cases hv : dfs.log v with
    | none => rfl
    | some e =>
      simp only [hv] at h ⊢
      have hne : visitEdges obs (visit g obs n) v (adj g v)
          (fireVertex obs.onStart v
            { dfs with log := setStart dfs.log v e t, started := dfs.started ++ [v] }) t
            ≠ .outOfFuel := by
        intro hc
        simp [hc] at h
      rw [visitEdges_fuel ih v (adj g v) _ t hne]

theorem visit_fuel_le {n m : Nat} (hnm : n ≤ m) (dfs : configInheritanceDFS σ) (t : Nat)
    (v : String) (h : visit g obs n dfs t v ≠ .outOfFuel) :
    visit g obs m dfs t v = visit g obs n dfs t v := by
  induction m, hnm using Nat.le_induction with
  | base => rfl
  | succ m _ ih => rw [visit_fuel m dfs t v (by rw [ih]; exact h), ih]

@[simp] theorem hasCycles_fire_tree (v w : String) (dfs : configInheritanceDFS Bool) :
    fireEdge hasCyclesObservers.onTree v w dfs = dfs := rfl

@[simp] theorem hasCycles_fire_cross (v w : String) (dfs : configInheritanceDFS Bool) :
    fireEdge hasCyclesObservers.onCross v w dfs = dfs := rfl

@[simp] theorem hasCycles_fire_back (v w : String) (dfs : configInheritanceDFS Bool) :
    (fireEdge hasCyclesObservers.onBack v w dfs).captured = true := rfl

@[simp] theorem hasCycles_fire_start (v : String) (dfs : configInheritanceDFS Bool) :
    fireVertex hasCyclesObservers.onStart v dfs = dfs := rfl

@[simp] theorem hasCycles_fire_finish (v : String) (dfs : configInheritanceDFS Bool) :
    fireVertex hasCyclesObservers.onFinish v dfs = dfs := rfl

/-- Appending a vertex whose edges all lead to finished vertices keeps the finish
order consistent with the edges. -/
theorem Ordered.snoc {dfs dfs1 : configInheritanceDFS σ} (h : Ordered g dfs) {v : String}
    (hv : v ∉ dfs.finished) (hadj : ∀ w ∈ adj g v, w ∈ dfs.finished)
    (hf : dfs1.finished = dfs.finished ++ [v]) : Ordered g dfs1 := by
  intro u hu w hw
  rw [hf] at hu ⊢
  rcases List.mem_append.1 hu with hu | hu
  · obtain ⟨hm, hlt⟩ := h u hu w hw
    refine ⟨List.mem_append_left _ hm, ?_⟩
    rw [List.indexOf_append_of_mem hm, List.indexOf_append_of_mem hu]
    exact hlt
  · rw [List.mem_singleton] at hu
    subst hu
    have hm := hadj w hw
    refine ⟨List.mem_append_left _ hm, ?_⟩
    rw [List.indexOf_append_of_mem hm, List.indexOf_append_of_not_mem hv]
    have := List.indexOf_lt_length.2 hm
    omega

/-- The flag of `HasCycles` along an activation: it is never reset; while it is
`false` the finish order is consistent with the edges; and it is set only if a
cycle is reachable from the current vertex, provided every started and
unfinished vertex reaches the current vertex. -/
theorem Run.flag {c : Call} {dfs dfs1 : configInheritanceDFS Bool} {t t1 : Nat}
    (h : Run g hasCyclesObservers c dfs t dfs1 t1) :
    Inv g dfs → 1 ≤ t → c.pre dfs → c.wf g →
      (dfs.captured = true → dfs1.captured = true) ∧
      (dfs1.captured = false → Ordered g dfs → Ordered g dfs1 ∧ c.done dfs1) ∧
      ((∀ x ∈ dfs.started, x ∉ dfs.finished → Reach g x c.current) →
        dfs1.captured = true →
        dfs.captured = true ∨ ∃ x, Reach g c.current x ∧ ReachPlus g x x) := by
  induction h with
  | done v dfs t =>
    intro _ _ _ _
    exact ⟨id, fun _ ho => ⟨ho, by simp [Call.done]⟩, fun _ hc => Or.inl hc⟩
  | tree v w ws dfs dfs1 dfs2 t t1 t2 e hw h0 r1 r2 ih1 ih2 =>
    intro hinv ht _ hwf
    have hwn : w ∉ dfs.started := fun hm => ((hinv.st w e hw).2 hm) h0
    simp only [hasCycles_fire_tree] at r1 ih1
    have f1 := r1.frame hinv (by omega) (by simpa [Call.pre] using hwn)
    have f2 := r2.frame f1.inv (by have := f1.time; omega) trivial
    have hwf2 : Call.wf g (.edges v ws) := fun x hx => hwf x (List.mem_cons_of_mem _ hx)
    obtain ⟨a1, b1, c1⟩ := ih1 hinv (by omega) (by simpa [Call.pre] using hwn) trivial
    obtain ⟨a2, b2, c2⟩ := ih2 f1.inv (by have := f1.time; omega) trivial hwf2
    obtain ⟨n1, hn1, hn1p, hn1s⟩ := f1.grow
    obtain ⟨n2, hn2, _, _⟩ := f2.grow
    obtain ⟨⟨l, hl⟩, _⟩ := f1.post
    have hedge : w ∈ adj g v := hwf w (List.mem_cons_self _ _)
    refine ⟨fun hc => a2 (a1 hc), fun hc ho => ?_, fun hst hc => ?_⟩
    · have hc1 : dfs1.captured = false := by
        cases hb : dfs1.captured with
        | false => rfl
        | true => rw [a2 hb] at hc; exact absurd hc (by simp)
      obtain ⟨o1, _⟩ := b1 hc1 ho
      obtain ⟨o2, d2⟩ := b2 hc o1
      refine ⟨o2, ?_⟩
      intro x hx
      rcases List.mem_cons.1 hx with rfl | hx
      · rw [hn2, hl]; simp
      · exact d2 x hx
    · have hst2 : ∀ x ∈ dfs1.started, x ∉ dfs1.finished →
          Reach g x (Call.edges v ws).current := by
        intro x hx hxf
        rw [hn1, List.mem_append, not_or] at hxf
        rcases (hn1s x).1 hx with hx | hx
        · exact hst x hx hxf.1
        · exact absurd hx hxf.2
      rcases c2 hst2 hc with hc1 | hcyc
      · have hst1 : ∀ x ∈ dfs.started, x ∉ dfs.finished →
            Reach g x (Call.vertex w).current :=
          fun x hx hxf => Relation.ReflTransGen.tail (hst x hx hxf) hedge
        rcases c1 hst1 hc1 with hc0 | ⟨x, hx, hxx⟩
        · exact Or.inl hc0
        · exact Or.inr ⟨x, Relation.ReflTransGen.head hedge hx, hxx⟩
      · exact Or.inr hcyc
  | back v w ws dfs dfs2 t t2 e hw h0 h1 r ih =>
    intro hinv ht _ hwf
    have hwf2 : Call.wf g (.edges v ws) := fun x hx => hwf x (List.mem_cons_of_mem _ hx)
    obtain ⟨a, _, _⟩ := ih (hinv.congr (by simp) (by simp) (by simp)) ht trivial hwf2
    have htrue : dfs2.captured = true := a (hasCycles_fire_back v w dfs)
    refine ⟨fun _ => htrue, fun hc _ => ?_, fun hst _ => ?_⟩
    · rw [htrue] at hc; exact absurd hc (by simp)
    · have hws : w ∈ dfs.started := (hinv.st w e hw).1 h0
      have hwnf : w ∉ dfs.finished := fun hm => ((hinv.fi w e hw).2 hm) h1
      have hedge : w ∈ adj g v := hwf w (List.mem_cons_self _ _)
      exact Or.inr ⟨v, Relation.ReflTransGen.refl,
        Relation.TransGen.head' hedge (hst w hws hwnf)⟩
  | cross v w ws dfs dfs2 t t2 e hw h0 h1 r ih =>
    intro hinv ht _ hwf
    have hwf2 : Call.wf g (.edges v ws) := fun x hx => hwf x (List.mem_cons_of_mem _ hx)
    simp only [hasCycles_fire_cross] at r ih
    have f := r.frame hinv ht trivial
    obtain ⟨a, b, c⟩ := ih hinv ht trivial hwf2
    obtain ⟨n, hn, _, _⟩ := f.grow
    refine ⟨a, fun hc ho => ?_, c⟩
    obtain ⟨o, d⟩ := b hc ho
    refine ⟨o, ?_⟩
    intro x hx
    rcases List.mem_cons.1 hx with rfl | hx
    · rw [hn]; exact List.mem_append_left _ ((hinv.fi x e hw).1 h1)
    · exact d x hx
  | visit v dfs dfs2 t t2 e e2 hv r hv2 ih =>
    intro hinv ht hpre _
    have hvn : v ∉ dfs.started := hpre
    simp only [hasCycles_fire_start] at r ih
    simp only [hasCycles_fire_finish]
    have hi1 : Inv g { dfs with log := setStart dfs.log v e t, started := dfs.started ++ [v] } := by
      simpa using @Inv.start Bool g hasCyclesObservers dfs hinv v e hv t ht
    have f := r.frame hi1 ht trivial
    obtain ⟨a, b, c⟩ := ih hi1 ht trivial (fun w hw => hw)
    obtain ⟨n, hn, hnp, hns⟩ := f.grow
    simp only [List.mem_append, List.mem_singleton, not_or] at hn hnp hns
    have hvf : v ∉ dfs2.finished := by
      rw [hn, List.mem_append]
      rintro (hm | hm)
      · exact hvn (hinv.sub v hm)
      · exact (hnp v hm).1.2 rfl
    refine ⟨a, fun hc ho => ?_, fun hst hc => ?_⟩
    · obtain ⟨o, d⟩ := b hc ho
      exact ⟨o.snoc hvf d rfl, trivial⟩
    · refine c ?_ hc
      intro x hx hxf
      simp only [List.mem_append, List.mem_singleton] at hx
      rcases hx with hx | rfl
      · exact hst x hx hxf
      · exact Relation.ReflTransGen.refl

theorem adj_mem {v w : String} (h : w ∈ adj g v) : ∃ p ∈ g, p.1 = v ∧ w ∈ p.2 := by
  induction g with
  | nil => simp [adj] at h
  | cons p g ih =>
    obtain ⟨k, a⟩ := p
    by_cases hk : v = k
    · subst hk
      simp only [adj, List.lookup, beq_self_eq_true, Option.getD_some] at h
      exact ⟨(v, a), List.mem_cons_self _ _, rfl, h⟩
    · have hb : (v == k) = false := by simpa using hk
      simp only [adj, List.lookup, hb] at h
      obtain ⟨q, hq, hq1, hq2⟩ := ih h
      exact ⟨q, List.mem_cons_of_mem _ hq, hq1, hq2⟩

theorem targetsAreKeys_of_checked (h : targetsChecked g = true) : TargetsAreKeys g := by
  intro v w hw
  obtain ⟨p, hp, _, hpw⟩ := adj_mem hw
  simp only [targetsChecked, List.all_eq_true] at h
  exact h p hp w hpw

theorem acyclic_of_rank (f : String → Nat) (h : ∀ v w, w ∈ adj g v → f w < f v) :
    ¬ Cyclic g := by
  have key : ∀ u w, ReachPlus g u w → f w < f u := by
    intro u w huw
    induction huw with
    | single e => exact h _ _ e
    | tail _ e ih => exact lt_trans (h _ _ e) ih
  rintro ⟨x, hx⟩
  exact lt_irrefl _ (key x x hx)

theorem acyclic_of_rankChecked (r : List String) (h : rankChecked g r = true) : ¬ Cyclic g := by
  apply acyclic_of_rank (fun v => r.indexOf v)
  intro v w hw
  obtain ⟨p, hp, hpv, hpw⟩ := adj_mem hw
  simp only [rankChecked, List.all_eq_true, decide_eq_true_eq] at h
  have := h p hp w hpw
  rw [hpv] at this
  exact this

theorem inv_init (g : configInheritanceGraph) : Inv g (hasCyclesInit g) := by
  constructor
  · intro v
    simp only [hasCyclesInit, makeConfigInheritanceDFSLog]
    cases isKey g v <;> simp
  · intro v e he
    simp only [hasCyclesInit, makeConfigInheritanceDFSLog] at he ⊢
    cases hk : isKey g v <;> simp [hk] at he
    subst he
    simp
  · intro v e he
    simp only [hasCyclesInit, makeConfigInheritanceDFSLog] at he ⊢
    cases hk : isKey g v <;> simp [hk] at he
    subst he
    simp
  · intro v hv; simp [hasCyclesInit] at hv
  · intro v hv; simp [hasCyclesInit] at hv
  · simp [hasCyclesInit]
  · intro v hv; simp [hasCyclesInit] at hv

/-- The budget of `HasCycles` is never exhausted, whatever the graph. -/
theorem visit_init_ne_outOfFuel (g : configInheritanceGraph) (start : String) :
    visit g hasCyclesObservers (g.length + 1) (hasCyclesInit g) 1 start ≠ .outOfFuel :=
  (visit_returns (g.length + 1) (hasCyclesInit g) 1 start (inv_init g) (le_refl 1)
    (by simp [hasCyclesInit])
    (Nat.lt_succ_of_le (unstarted_init_le g _))).1

/-- Any budget above the number of entries of the graph gives the result of `HasCycles`. -/
theorem HasCyclesFuel_eq (g : configInheritanceGraph) (start : String) (fuel : Nat)
    (h : g.length < fuel) : HasCyclesFuel fuel g start = HasCycles g start := by
  unfold HasCycles HasCyclesFuel
  rw [visit_fuel_le (Nat.succ_le_of_lt h) _ _ _ (visit_init_ne_outOfFuel g start)]

/-- On a graph whose edge targets are keys, `HasCycles` of a key returns, and what it
returns is described by `Resolved`. -/
theorem HasCycles_resolved (hg : TargetsAreKeys g) {start : String}
    (hs : isKey g start = true) :
    ∃ b order, HasCycles g start = .ok (b, order) ∧ Resolved g start b order := by
  have hret := @visit_returns Bool g hasCyclesObservers (g.length + 1) (hasCyclesInit g) 1 start
    (inv_init g) (le_refl 1) (by simp [hasCyclesInit])
    (Nat.lt_succ_of_le (unstarted_init_le g _))
  cases hc : visit g hasCyclesObservers (g.length + 1) (hasCyclesInit g) 1 start with
  | nilDeref => exact absurd hc (hret.2 hg hs)
  | outOfFuel => exact absurd hc hret.1
  | ok r =>
    obtain ⟨dfs, t⟩ := r
    refine ⟨dfs.captured, dfs.finished, by simp [HasCycles, HasCyclesFuel, hc], ?_⟩
    have run := visit_run _ _ _ _ _ _ hc
    have hpre : (Call.vertex start).pre (hasCyclesInit g) := by simp [Call.pre, hasCyclesInit]
    have f := run.frame (inv_init g) (le_refl 1) hpre
    obtain ⟨_, hord, hcyc⟩ := run.flag (inv_init g) (le_refl 1) hpre trivial
    obtain ⟨n, hn, hnp, hns⟩ := f.grow
    obtain ⟨⟨l, hl⟩, _⟩ := f.post
    simp only [hasCyclesInit, List.nil_append, List.not_mem_nil, false_or, not_false_eq_true,
      true_and, Call.roots, List.mem_singleton, exists_eq_left] at hn hnp hns hl
    have hstart : start ∈ dfs.finished := by rw [hl]; simp
    constructor
    · exact f.inv.nodup
    · intro x
      constructor
      · intro hx
        rw [hn] at hx
        exact hnp x hx
      · intro hx
        induction hx with
        | refl => exact hstart
        | tail _ e ih =>
          have := f.inv.clos _ ih _ e
          rw [hns, ← hn] at this
          exact this
    · exact ⟨l, hl⟩
    · intro hb
      exact (hord hb (by intro u hu; simp [hasCyclesInit] at hu)).1
    · intro hb
      rcases hcyc (by intro x hx; simp [hasCyclesInit] at hx) hb with h0 | h1
      · simp [hasCyclesInit] at h0
      · exact h1

/-- With a finish order consistent with the edges, a path of one or more edges
from a listed vertex leads to a vertex listed earlier. -/
theorem index_lt_of_reachPlus {order : List String}
    (hord : ∀ u ∈ order, ∀ w ∈ adj g u, w ∈ order ∧ order.indexOf w < order.indexOf u)
    {u w : String} (h : ReachPlus g u w) (hu : u ∈ order) :
    w ∈ order ∧ order.indexOf w < order.indexOf u := by
  induction h with
  | single e => exact hord u hu _ e
  | tail _ e ih =>
    obtain ⟨hm, hlt⟩ := hord _ ih.1 _ e
    exact ⟨hm, lt_trans hlt ih.2⟩

theorem chainDown_isKey : ∀ (rs : List String), chainDown g rs = true →
    ∀ x ∈ rs, isKey g x = true
  | [], _, x, hx => by simp at hx
  | [v], h, x, hx => by
    simp only [List.mem_singleton] at hx
    subst hx
    simp only [chainDown, beq_iff_eq] at h
    simp [isKey, h]
  | v :: p :: rest, h, x, hx => by
    simp only [chainDown, Bool.and_eq_true, beq_iff_eq] at h
    rcases List.mem_cons.1 hx with rfl | hx
    · simp [isKey, h.1]
    · exact chainDown_isKey (p :: rest) h.2 x hx

/-- The traversal of a chain of unvisited vertices: `visit` of its head returns,
appends the chain to `finished` from the root up, leaves the flag alone, and
changes the log only on the chain. -/
theorem visit_chain : ∀ (rest : List String) (v : String), (v :: rest).Nodup →
    chainDown g (v :: rest) = true →
    ∀ (n : Nat) (dfs : configInheritanceDFS Bool) (t : Nat), (v :: rest).length ≤ n →
      (∀ x ∈ v :: rest, dfs.log x = some ⟨0, 0⟩) →
      ∃ dfs1 t1, visit g hasCyclesObservers n dfs t v = .ok (dfs1, t1) ∧
        dfs1.finished = dfs.finished ++ (v :: rest).reverse ∧
        dfs1.captured = dfs.captured ∧ ∀ x, x ∉ v :: rest → dfs1.log x = dfs.log x := by
  intro rest
  induction rest with
  | nil =>
    intro v _ hch n dfs t hn hlog
    obtain ⟨m, rfl⟩ : ∃ m, n = m + 1 := ⟨n - 1, by simp at hn; omega⟩
    have hadj : adj g v = [] := by
      simp only [chainDown, beq_iff_eq] at hch
      simp [adj, hch]
    have hv := hlog v (List.mem_cons_self _ _)
    refine ⟨{ log := setFinish (setStart dfs.log v ⟨0, 0⟩ t) v ⟨t, 0⟩ (t + 1),
              finished := dfs.finished ++ [v], started := dfs.started ++ [v],
              captured := dfs.captured }, t + 1,
      by simp [visit, hv, hadj, visitEdges, setStart], by simp, by simp, ?_⟩
    intro x hx
    simp only [List.mem_singleton] at hx
    simp [setFinish, setStart, hx]
  | cons p rest ih =>
    intro v hnd hch n dfs t hn hlog
    obtain ⟨m, rfl⟩ : ∃ m, n = m + 1 := ⟨n - 1, by simp at hn; omega⟩
    simp only [chainDown, Bool.and_eq_true, beq_iff_eq] at hch
    have hadj : adj g v = [p] := by simp [adj, hch.1]
    have hv := hlog v (List.mem_cons_self _ _)
    have hnd2 : (p :: rest).Nodup := (List.nodup_cons.1 hnd).2
    have hvn : v ∉ p :: rest := (List.nodup_cons.1 hnd).1
    have hpv : p ≠ v := fun h => hvn (h ▸ List.mem_cons_self _ _)
    obtain ⟨dfs2, t2, hrun, hfin, hcap, hfr⟩ := ih p hnd2 hch.2 m
      { dfs with log := setStart dfs.log v ⟨0, 0⟩ t, started := dfs.started ++ [v] } (t + 1)
      (by simp at hn ⊢; omega)
      (by
        intro x hx
        have hxv : x ≠ v := fun h => hvn (h ▸ hx)
        simp only [setStart, hxv, if_false]
        exact hlog x (List.mem_cons_of_mem _ hx))
    have hp : setStart dfs.log v ⟨0, 0⟩ t p = some ⟨0, 0⟩ := by
      simp only [setStart, hpv, if_false]
      exact hlog p (List.mem_cons_of_mem _ (List.mem_cons_self _ _))
    have hv2 : dfs2.log v = some ⟨t, 0⟩ := by
      rw [hfr v hvn]
      simp [setStart]
    refine ⟨{ dfs2 with log := setFinish dfs2.log v ⟨t, 0⟩ (t2 + 1),
                        finished := dfs2.finished ++ [v] }, t2 + 1,
      by simp [visit, hv, hadj, visitEdges, hp, hrun, hv2], ?_, ?_, ?_⟩
    · simp [hfin]
    · simp [hcap]
    · intro x hx
      have hxv : x ≠ v := fun h => hx (h ▸ List.mem_cons_self _ _)
      have hx2 : x ∉ p :: rest := fun h => hx (List.mem_cons_of_mem _ h)
      simp only [hasCycles_fire_finish, setFinish, hxv, if_false]
      rw [hfr x hx2]
      simp [setStart, hxv]

/-- The result of `HasCycles` on a chain: flag `false`, and the chain from the root up. -/
theorem HasCycles_chain (rs : List String) (v : String) (rest : List String)
    (hrs : rs = v :: rest) (hnd : rs.Nodup) (hch : chainDown g rs = true) :
    HasCycles g v = .ok (false, rs.reverse) := by
  subst hrs
  have hkeys := chainDown_isKey _ hch
  have hlen : (v :: rest).length ≤ g.length + 1 := by
    have hsub : v :: rest ⊆ g.map Prod.fst := fun x hx => (isKey_iff_mem g x).1 (hkeys x hx)
    have := (List.subperm_of_subset hnd hsub).length_le
    simp only [List.length_map] at this
    omega
  obtain ⟨dfs1, t1, hrun, hfin, hcap, _⟩ := visit_chain rest v hnd hch (g.length + 1)
    (hasCyclesInit g) 1 hlen
    (by
      intro x hx
      simp [hasCyclesInit, makeConfigInheritanceDFSLog, hkeys x hx])
  simp only [HasCycles, HasCyclesFuel, hrun]
  rw [hfin, hcap]
  simp [hasCyclesInit]

theorem lookup_inheritanceGraph {E : Type} (ops : EntryOps E) (c : Collection E) (x : String) :
    (inheritanceGraph ops c).lookup x = (c.lookup x).map ops.inherits := by
  induction c with
  | nil => rfl
  | cons p c ih =>
    obtain ⟨k, e⟩ := p
    simp only [inheritanceGraph, List.map_cons, List.lookup] at ih ⊢
    cases hb : x == k
    · simpa using ih
    · simp

theorem isKey_inheritanceGraph {E : Type} (ops : EntryOps E) (c : Collection E) (x : String) :
    isKey (inheritanceGraph ops c) x = (c.lookup x).isSome := by
  simp [isKey, lookup_inheritanceGraph]

theorem reach_isKey (hg : TargetsAreKeys g) {v x : String} (hv : isKey g v = true)
    (h : Reach g v x) : isKey g x = true := by
  induction h with
  | refl => exact hv
  | tail _ e _ => exact hg _ _ e

theorem mergeAll_ok {E : Type} (ops : EntryOps E) (c : Collection E) :
    ∀ (keys : List String) (env : E), (∀ k ∈ keys, (c.lookup k).isSome = true) →
      ∃ r, mergeAll ops c keys env = .ok r
  | [], env, _ => ⟨env, rfl⟩
  | k :: keys, env, h => by
    have hk := h k (List.mem_cons_self _ _)
    obtain ⟨e, he⟩ := Option.isSome_iff_exists.1 hk
    simp only [mergeAll, he]
    exact mergeAll_ok ops c keys _ (fun x hx => h x (List.mem_cons_of_mem _ hx))

theorem nearest_append {E : Type} (F : E → String) (c : Collection E) (d : String) :
    ∀ (a b : List String), nearest F c d (a ++ b) = nearest F c (nearest F c d b) a
  | [], b => rfl
  | k :: a, b => by
    simp only [List.cons_append, nearest]
    cases c.lookup k with
    | none => exact nearest_append F c d a b
    | some e =>
      simp only
      split
      · exact nearest_append F c d a b
      · rfl

/-- After the merges, a field for which the argument's non-empty value wins holds
the nearest non-empty value, walking the merge order backwards. -/
theorem mergeAll_nearest {E : Type} (ops : EntryOps E) (c : Collection E) (F : E → String)
    (hmerge : ∀ acc other, F (ops.merge acc other) = if F other = "" then F acc else F other) :
    ∀ (keys : List String) (env r : E), mergeAll ops c keys env = .ok r →
      F r = nearest F c (F env) keys.reverse
  | [], env, r, h => by
    simp only [mergeAll, Outcome.ok.injEq] at h
    subst h
    rfl
  | k :: keys, env, r, h => by
    simp only [mergeAll] at h
    cases hk : c.lookup k with
    | none => simp [hk] at h
    | some e =>
      simp only [hk] at h
      rw [mergeAll_nearest ops c F hmerge keys _ r h, List.reverse_cons, nearest_append]
      simp only [nearest, hk, hmerge]

/-- A resolver call for a present name, on an inheritance graph whose edge targets
are keys, returns the merges along the merge order of `HasCycles`. -/
theorem resolveEntry_ok {E : Type} (ops : EntryOps E) (unknown : String) (c : Collection E)
    (name : String) (hg : TargetsAreKeys (inheritanceGraph ops c))
    (hk : (c.lookup name).isSome = true) :
    ∃ b order env, HasCycles (inheritanceGraph ops c) name = .ok (b, order) ∧
      Resolved (inheritanceGraph ops c) name b order ∧
      mergeAll ops c order ops.zero = .ok env ∧
      resolveEntry ops unknown c name = .ok (.ok env) := by
  have hkey : isKey (inheritanceGraph ops c) name = true := by
    rw [isKey_inheritanceGraph]; exact hk
  obtain ⟨b, order, hres, r⟩ := HasCycles_resolved hg hkey
  obtain ⟨env, henv⟩ := mergeAll_ok ops c order ops.zero (by
    intro k hk'
    rw [← isKey_inheritanceGraph ops]
    exact reach_isKey hg hkey ((r.mem_iff k).1 hk'))
  refine ⟨b, order, env, hres, r, henv, ?_⟩
  obtain ⟨e, he⟩ := Option.isSome_iff_exists.1 hk
  simp [resolveEntry, he, hres, henv]

theorem resolveEntry_absent {E : Type} (ops : EntryOps E) (unknown : String) (c : Collection E)
    (name : String) (hk : c.lookup name = none) :
    resolveEntry ops unknown c name = .ok (.error (.text (unknown ++ name))) := by
  simp [resolveEntry, hk]

theorem resolveEntry_error {E : Type} (ops : EntryOps E) (unknown : String) (c : Collection E)
    (name : String) (err : GoError) (h : resolveEntry ops unknown c name = .ok (.error err)) :
    c.lookup name = none := by
  unfold resolveEntry at h
  cases hk : c.lookup name with
  | none => rfl
  | some e =>
    simp only [hk] at h
    cases hc : HasCycles (inheritanceGraph ops c) name with
    | ok r =>
      simp only [hc] at h
      cases hm : mergeAll ops c r.2 ops.zero <;> simp [hm] at h
    | nilDeref => simp [hc] at h
    | outOfFuel => simp [hc] at h

/-- A call of `HasCycles` on a name that is not a key panics in the first statement of `visit`. -/
theorem HasCyclesFuel_absent (g : configInheritanceGraph) (start : String)
    (h : isKey g start = false) (fuel : Nat) :
    HasCyclesFuel (fuel + 1) g start = .nilDeref := by
  simp [HasCyclesFuel, visit, hasCyclesInit, makeConfigInheritanceDFSLog, h]

/-- The merge order of a chain listed from the root up, resolved from its last name. -/
theorem HasCycles_chain_getLast (vs : List String) (hne : vs ≠ []) (hnd : vs.Nodup)
    (hch : chainDown g vs.reverse = true) :
    HasCycles g (vs.getLast hne) = .ok (false, vs) := by
  have hrev : vs.reverse = vs.getLast hne :: vs.dropLast.reverse := by
    conv_lhs => rw [← List.dropLast_append_getLast hne]
    simp
  have := HasCycles_chain (g := g) vs.reverse (vs.getLast hne) vs.dropLast.reverse hrev
    (List.nodup_reverse.2 hnd) hch
  simpa using this

theorem startOf_setStart (log : configInheritanceDFSLog) (v : String) (e : LogEntry)
    (t : Nat) (x : String) :
    startOf (setStart log v e t) x = if x = v then t else startOf log x := by
  unfold startOf setStart
  by_cases hx : x = v <;> simp [hx]

theorem finishOf_setStart {log : configInheritanceDFSLog} {v : String} {e : LogEntry}
    (hv : log v = some e) (t : Nat) (x : String) :
    finishOf (setStart log v e t) x = finishOf log x := by
  unfold finishOf setStart
  by_cases hx : x = v
  · subst hx; simp [hv]
  · simp [hx]

theorem startOf_setFinish {log : configInheritanceDFSLog} {v : String} {e : LogEntry}
    (hv : log v = some e) (t : Nat) (x : String) :
    startOf (setFinish log v e t) x = startOf log x := by
  unfold startOf setFinish
  by_cases hx : x = v
  · subst hx; simp [hv]
  · simp [hx]

theorem finishOf_setFinish (log : configInheritanceDFSLog) (v : String) (e : LogEntry)
    (t : Nat) (x : String) :
    finishOf (setFinish log v e t) x = if x = v then t else finishOf log x := by
  unfold finishOf setFinish
  by_cases hx : x = v <;> simp [hx]

/-- The stamps only read the log and the two lists. -/
theorem Stamps.transfer {dfs dfs1 : configInheritanceDFS σ} {k : Nat} (h : Stamps dfs k)
    (hl : dfs1.log = dfs.log) (hf : dfs1.finished = dfs.finished)
    (hs : dfs1.started = dfs.started) : Stamps dfs1 k := by
  constructor
  · rw [hl, hs]; exact h.sb
  · rw [hl, hf]; exact h.fb
  · rw [hl, hs]; exact h.si
  · rw [hl, hf]; exact h.fi
  · rw [hl, hf, hs]; exact h.sf
  · rw [hl, hf, hs]; exact h.onto
  · rw [hf, hs]; exact h.count
  · rw [hs]; exact h.snodup

/-- The start step hands out the next timestamp. -/
theorem Stamps.afterStart {dfs : configInheritanceDFS σ} {k : Nat} (h : Stamps dfs k)
    (hsub : ∀ x ∈ dfs.finished, x ∈ dfs.started) {v : String} {e : LogEntry}
    (hv : dfs.log v = some e) (hvn : v ∉ dfs.started) (f : Option (String → σ → σ)) :
    Stamps (fireVertex f v
      { dfs with log := setStart dfs.log v e (k + 1), started := dfs.started ++ [v] })
      (k + 1) := by
  have hvf : v ∉ dfs.finished := fun hm => hvn (hsub v hm)
  have neS : ∀ x ∈ dfs.started, x ≠ v := fun x hx hxv => hvn (hxv ▸ hx)
  have neF : ∀ x ∈ dfs.finished, x ≠ v := fun x hx hxv => hvf (hxv ▸ hx)
  constructor
  · intro x hx
    simp only [fireVertex_log, fireVertex_started, List.mem_append, List.mem_singleton,
      startOf_setStart] at hx ⊢
    rcases hx with hx | rfl
    · have := h.sb x hx
      simp only [neS x hx, if_false]; omega
    · simp
  · intro x hx
    simp only [fireVertex_log, fireVertex_finished, startOf_setStart, finishOf_setStart hv]
      at hx ⊢
    have := h.fb x hx
    simp only [neF x hx, if_false]; omega
  · intro u hu w hw
    simp only [fireVertex_log, fireVertex_started, List.mem_append, List.mem_singleton,
      startOf_setStart] at hu hw ⊢
    rcases hu with hu | rfl <;> rcases hw with hw | rfl
    · simp only [neS u hu, neS w hw, if_false]; exact h.si u hu w hw
    · have := h.sb u hu
      simp only [neS u hu, if_false, if_true]; omega
    · have := h.sb w hw
      simp only [neS w hw, if_false, if_true]; omega
    · intro _; rfl
  · intro u hu w hw
    simp only [fireVertex_log, fireVertex_finished, finishOf_setStart hv] at hu hw ⊢
    exact h.fi u hu w hw
  · intro u hu w hw
    simp only [fireVertex_log, fireVertex_started, fireVertex_finished, List.mem_append,
      List.mem_singleton, startOf_setStart, finishOf_setStart hv] at hu hw ⊢
    rcases hu with hu | rfl
    · simp only [neS u hu, if_false]; exact h.sf u hu w hw
    · have := h.fb w hw
      simp only [if_true]; omega
  · intro j h1 hj
    simp only [fireVertex_log, fireVertex_started, fireVertex_finished, List.mem_append,
      List.mem_singleton, startOf_setStart, finishOf_setStart hv]
    by_cases hjk : j ≤ k
    · rcases h.onto j h1 hjk with ⟨x, hx, hxj⟩ | ⟨x, hx, hxj⟩
      · exact Or.inl ⟨x, Or.inl hx, by simp only [neS x hx, if_false]; exact hxj⟩
      · exact Or.inr ⟨x, hx, hxj⟩
    · exact Or.inl ⟨v, Or.inr rfl, by simp only [if_true]; omega⟩
  · simp only [fireVertex_started, fireVertex_finished, List.length_append,
      List.length_singleton]
    have := h.count; omega
  · simp only [fireVertex_started]
    exact List.Nodup.append h.snodup (List.nodup_singleton v) (by simpa using hvn)

/-- The finish step hands out the next timestamp. -/
theorem Stamps.afterFinish {dfs : configInheritanceDFS σ} {k : Nat} (h : Stamps dfs k)
    {v : String} {e : LogEntry} (hv : dfs.log v = some e) (hvs : v ∈ dfs.started)
    (hvf : v ∉ dfs.finished) (f : Option (String → σ → σ)) :
    Stamps (fireVertex f v
      { dfs with log := setFinish dfs.log v e (k + 1), finished := dfs.finished ++ [v] })
      (k + 1) := by
  have neF : ∀ x ∈ dfs.finished, x ≠ v := fun x hx hxv => hvf (hxv ▸ hx)
  constructor
  · intro x hx
    simp only [fireVertex_log, fireVertex_started, startOf_setFinish hv] at hx ⊢
    have := h.sb x hx
    omega
  · intro x hx
    simp only [fireVertex_log, fireVertex_finished, List.mem_append, List.mem_singleton,
      startOf_setFinish hv, finishOf_setFinish] at hx ⊢
    rcases hx with hx | rfl
    · have := h.fb x hx
      simp only [neF x hx, if_false]; omega
    · have := h.sb x hvs
      simp only [if_true]; omega
  · intro u hu w hw
    simp only [fireVertex_log, fireVertex_started, startOf_setFinish hv] at hu hw ⊢
    exact h.si u hu w hw
  · intro u hu w hw
    simp only [fireVertex_log, fireVertex_finished, List.mem_append, List.mem_singleton,
      finishOf_setFinish] at hu hw ⊢
    rcases hu with hu | rfl <;> rcases hw with hw | rfl
    · simp only [neF u hu, neF w hw, if_false]; exact h.fi u hu w hw
    · have := h.fb u hu
      simp only [neF u hu, if_false, if_true]; omega
    · have := h.fb w hw
      simp only [neF w hw, if_false, if_true]; omega
    · intro _; rfl
  · intro u hu w hw
    simp only [fireVertex_log, fireVertex_started, fireVertex_finished, List.mem_append,
      List.mem_singleton, startOf_setFinish hv, finishOf_setFinish] at hu hw ⊢
    rcases hw with hw | rfl
    · simp only [neF w hw, if_false]; exact h.sf u hu w hw
    · have := h.sb u hu
      simp only [if_true]; omega
  · intro j h1 hj
    simp only [fireVertex_log, fireVertex_started, fireVertex_finished, List.mem_append,
      List.mem_singleton, startOf_setFinish hv, finishOf_setFinish]
    by_cases hjk : j ≤ k
    · rcases h.onto j h1 hjk with ⟨x, hx, hxj⟩ | ⟨x, hx, hxj⟩
      · exact Or.inl ⟨x, hx, hxj⟩
      · exact Or.inr ⟨x, Or.inl hx, by simp only [neF x hx, if_false]; exact hxj⟩
    · exact Or.inr ⟨v, Or.inr rfl, by simp only [if_true]; omega⟩
  · simp only [fireVertex_started, fireVertex_finished, List.length_append,
      List.length_singleton]
    have := h.count; omega
  · simp only [fireVertex_started]
    exact h.snodup

/-- Every returning activation hands out consecutive timestamps: entered with the
stamps `1, ..., clock` in use, it returns with the stamps `1, ..., t1` in use,
`t1` being the counter it returns. -/
theorem Run.stamps {c : Call} {dfs dfs1 : configInheritanceDFS σ} {t t1 : Nat}
    (h : Run g obs c dfs t dfs1 t1) :
    Inv g dfs → 1 ≤ t → c.pre dfs → Stamps dfs (c.clock t) → Stamps dfs1 t1 := by
  induction h with
  | done v dfs t => intro _ _ _ hs; exact hs
  | tree v w ws dfs dfs1 dfs2 t t1 t2 e hw h0 r1 _ ih1 ih2 =>
    intro hinv ht _ hs
    have hwn : w ∉ dfs.started := fun hm => ((hinv.st w e hw).2 hm) h0
    have hi0 : Inv g (fireEdge obs.onTree v w dfs) := hinv.congr (by simp) (by simp) (by simp)
    have hp0 : (Call.vertex w).pre (fireEdge obs.onTree v w dfs) := by
      simpa [Call.pre] using hwn
    have f1 := r1.frame hi0 (by omega) hp0
    have s1 := ih1 hi0 (by omega) hp0
      (by simpa [Call.clock] using hs.transfer (fireEdge_log _ v w dfs)
            (fireEdge_finished _ v w dfs) (fireEdge_started _ v w dfs))
    exact ih2 f1.inv (by have := f1.time; omega) trivial s1
  | back v w ws dfs dfs2 t t2 e hw h0 h1 _ ih =>
    intro hinv ht _ hs
    exact ih (hinv.congr (by simp) (by simp) (by simp)) ht trivial
      (hs.transfer (fireEdge_log _ v w dfs) (fireEdge_finished _ v w dfs)
        (fireEdge_started _ v w dfs))
  | cross v w ws dfs dfs2 t t2 e hw h0 h1 _ ih =>
    intro hinv ht _ hs
    exact ih (hinv.congr (by simp) (by simp) (by simp)) ht trivial
      (hs.transfer (fireEdge_log _ v w dfs) (fireEdge_finished _ v w dfs)
        (fireEdge_started _ v w dfs))
  | visit v dfs dfs2 t t2 e e2 hv r hv2 ih =>
    intro hinv ht hpre hs
    have hvn : v ∉ dfs.started := hpre
    obtain ⟨k, rfl⟩ : ∃ k, t = k + 1 := ⟨t - 1, by omega⟩
    simp only [Call.clock, Nat.add_sub_cancel] at hs ih
    have hi1 := @Inv.start σ g obs dfs hinv v e hv (k + 1) ht
    have f := r.frame hi1 ht trivial
    have s2 := ih hi1 ht trivial (hs.afterStart hinv.sub hv hvn obs.onStart)
    obtain ⟨n, hn, hnp, hns⟩ := f.grow
    simp only [fireVertex_finished, fireVertex_started, List.mem_append,
      List.mem_singleton, not_or] at hn hnp hns
    have hvs : v ∈ dfs2.started := (hns v).2 (Or.inl (Or.inr rfl))
    have hvf : v ∉ dfs2.finished := by
      rw [hn, List.mem_append]
      rintro (hm | hm)
      · exact hvn (hinv.sub v hm)
      · exact (hnp v hm).1.2 rfl
    exact s2.afterFinish hv2 hvs hvf obs.onFinish

theorem inv_fresh (g : configInheritanceGraph) (c : σ) : Inv g (freshState g c) := by
  constructor
  · intro v
    simp only [freshState, makeConfigInheritanceDFSLog]
    cases isKey g v <;> simp
  · intro v e he
    simp only [freshState, makeConfigInheritanceDFSLog] at he ⊢
    cases hk : isKey g v <;> simp [hk] at he
    subst he
    simp
  · intro v e he
    simp only [freshState, makeConfigInheritanceDFSLog] at he ⊢
    cases hk : isKey g v <;> simp [hk] at he
    subst he
    simp
  · intro v hv; simp [freshState] at hv
  · intro v hv; simp [freshState] at hv
  · simp [freshState]
  · intro v hv; simp [freshState] at hv

theorem stamps_fresh (g : configInheritanceGraph) (c : σ) : Stamps (freshState g c) 0 := by
  constructor
  · intro v hv; simp [freshState] at hv
  · intro v hv; simp [freshState] at hv
  · intro v hv; simp [freshState] at hv
  · intro v hv; simp [freshState] at hv
  · intro v hv; simp [freshState] at hv
  · intro j h1 hj; omega
  · simp [freshState]
  · simp [freshState]

/-- The facts about a traversal from a fresh state that has returned, whatever the
graph and the observers: the state is consistent, the stamps are `1, ..., t`, the
started vertices are the finished ones, and these are the vertices reachable
from the start vertex, which finished last. -/
theorem Run.fresh {c0 : σ} {start : String} {dfs : configInheritanceDFS σ} {t : Nat}
    (h : Run g obs (.vertex start) (freshState g c0) 1 dfs t) :
    Inv g dfs ∧ Stamps dfs t ∧ (∀ x, x ∈ dfs.started ↔ x ∈ dfs.finished) ∧
      (∀ x, x ∈ dfs.finished ↔ Reach g start x) ∧ ∃ l, dfs.finished = l ++ [start] := by
  have hpre : (Call.vertex start).pre (freshState g c0) := by simp [Call.pre, freshState]
  have f := h.frame (inv_fresh g c0) (le_refl 1) hpre
  have hst := h.stamps (inv_fresh g c0) (le_refl 1) hpre
    (by simpa [Call.clock] using stamps_fresh g c0)
  obtain ⟨n, hn, hnp, hns⟩ := f.grow
  obtain ⟨⟨l, hl⟩, _⟩ := f.post
  simp only [freshState, List.nil_append, List.not_mem_nil, false_or, not_false_eq_true,
    true_and, Call.roots, List.mem_singleton, exists_eq_left] at hn hnp hns hl
  have hstart : start ∈ dfs.finished := by rw [hl]; simp
  refine ⟨f.inv, hst, ?_, ?_, l, hl⟩
  · intro x; rw [hns, hn]
  · intro x
    constructor
    · intro hx
      rw [hn] at hx
      exact hnp x hx
    · intro hx
      induction hx with
      | refl => exact hstart
      | tail _ e ih =>
        have := f.inv.clos _ ih _ e
        rw [hns, ← hn] at this
        exact this

/-- A consistent state with consecutive stamps satisfies the log invariant. -/
theorem logOK_of_stamps {dfs : configInheritanceDFS σ} {k : Nat} (hinv : Inv g dfs)
    (hs : Stamps dfs k) : LogOK dfs.log := by
  intro v e he
  have hS : startOf dfs.log v = e.start := by simp [startOf, he]
  have hF : finishOf dfs.log v = e.finish := by simp [finishOf, he]
  have key : e.finish ≠ 0 → 0 < e.start ∧ e.start < e.finish := by
    intro hf
    have hvf := (hinv.fi v e he).1 hf
    have h1 := hs.sb v (hinv.sub v hvf)
    have h2 := hs.fb v hvf
    rw [hS] at h1
    rw [hS, hF] at h2
    omega
  refine ⟨fun h0 => ?_, fun hf => ?_, key⟩
  · by_contra hf
    have := key hf
    omega
  · have := key hf
    omega

theorem logOK_fresh (g : configInheritanceGraph) : LogOK (makeConfigInheritanceDFSLog g) := by
  intro v e he
  simp only [makeConfigInheritanceDFSLog] at he
  cases hk : isKey g v <;> simp [hk] at he
  subst he
  simp

/-- The start step keeps the log invariant on an entry that has no start stamp. -/
theorem logOK_setStart {log : configInheritanceDFSLog} (h : LogOK log) {v : String}
    {e : LogEntry} (hv : log v = some e) (h0 : e.start = 0) (t : Nat) :
    LogOK (setStart log v e t) := by
  intro x e1 he1
  simp only [setStart] at he1
  by_cases hx : x = v
  · simp only [hx, if_true, Option.some.injEq] at he1
    subst he1
    have := (h v e hv).1 h0
    simp [this]
  · simp only [hx, if_false] at he1
    exact h x e1 he1

/-- The finish step keeps the log invariant on an entry whose start stamp is
non-zero and smaller than the new finish stamp. -/
theorem logOK_setFinish {log : configInheritanceDFSLog} (h : LogOK log) {v : String}
    {e : LogEntry} {t : Nat} (h1 : 0 < e.start) (h2 : e.start < t) :
    LogOK (setFinish log v e t) := by
  intro x e1 he1
  simp only [setFinish] at he1
  by_cases hx : x = v
  · simp only [hx, if_true, Option.some.injEq] at he1
    subst he1
    simp only
    omega
  · simp only [hx, if_false] at he1
    exact h x e1 he1

/-- Every state a traversal passes through is consistent and has consecutive stamps. -/
theorem During.consistent {c : Call} {dfs s : configInheritanceDFS σ} {t : Nat}
    (h : During g obs c dfs t s) :
    Inv g dfs → 1 ≤ t → c.pre dfs → Stamps dfs (c.clock t) → ∃ k, Inv g s ∧ Stamps s k := by
  induction h with
  | here c dfs t => intro hinv _ _ hs; exact ⟨_, hinv, hs⟩
  | inTree v w ws dfs s t e hw h0 _ ih =>
    intro hinv ht _ hs
    have hwn : w ∉ dfs.started := fun hm => ((hinv.st w e hw).2 hm) h0
    exact ih (hinv.congr (by simp) (by simp) (by simp)) (by omega)
      (by simpa [Call.pre] using hwn)
      (by simpa [Call.clock] using hs.transfer (fireEdge_log _ v w dfs)
            (fireEdge_finished _ v w dfs) (fireEdge_started _ v w dfs))
  | afterTree v w ws dfs dfs1 s t t1 e hw h0 r _ ih =>
    intro hinv ht _ hs
    have hwn : w ∉ dfs.started := fun hm => ((hinv.st w e hw).2 hm) h0
    have hi0 : Inv g (fireEdge obs.onTree v w dfs) := hinv.congr (by simp) (by simp) (by simp)
    have hp0 : (Call.vertex w).pre (fireEdge obs.onTree v w dfs) := by
      simpa [Call.pre] using hwn
    have f1 := r.frame hi0 (by omega) hp0
    have s1 := r.stamps hi0 (by omega) hp0
      (by simpa [Call.clock] using hs.transfer (fireEdge_log _ v w dfs)
            (fireEdge_finished _ v w dfs) (fireEdge_started _ v w dfs))
    exact ih f1.inv (by have := f1.time; omega) trivial s1
  | afterBack v w ws dfs s t e hw h0 h1 _ ih =>
    intro hinv ht _ hs
    exact ih (hinv.congr (by simp) (by simp) (by simp)) ht trivial
      (hs.transfer (fireEdge_log _ v w dfs) (fireEdge_finished _ v w dfs)
        (fireEdge_started _ v w dfs))
  | afterCross v w ws dfs s t e hw h0 h1 _ ih =>
    intro hinv ht _ hs
    exact ih (hinv.congr (by simp) (by simp) (by simp)) ht trivial
      (hs.transfer (fireEdge_log _ v w dfs) (fireEdge_finished _ v w dfs)
        (fireEdge_started _ v w dfs))
  | inBody v dfs s t e hv _ ih =>
    intro hinv ht hpre hs
    have hvn : v ∉ dfs.started := hpre
    obtain ⟨k, rfl⟩ : ∃ k, t = k + 1 := ⟨t - 1, by omega⟩
    simp only [Call.clock, Nat.add_sub_cancel] at hs ih
    exact ih (@Inv.start σ g obs dfs hinv v e hv (k + 1) ht) ht trivial
      (hs.afterStart hinv.sub hv hvn obs.onStart)
  | atExit v dfs dfs2 t t2 e e2 hv r hv2 =>
    intro hinv ht hpre hs
    have run := Run.visit v dfs dfs2 t t2 e e2 hv r hv2
    exact ⟨_, (run.frame hinv ht hpre).inv, run.stamps hinv ht hpre hs⟩

/-- The state an activation returns in is one of the states it passes through. -/
theorem Run.during {c : Call} {dfs dfs1 : configInheritanceDFS σ} {t t1 : Nat}
    (h : Run g obs c dfs t dfs1 t1) : During g obs c dfs t dfs1 := by
  induction h with
  | done v dfs t => exact During.here _ dfs t
  | tree v w ws dfs dfs1 dfs2 t t1 t2 e hw h0 r1 _ _ ih2 =>
    exact During.afterTree v w ws dfs dfs1 dfs2 t t1 e hw h0 r1 ih2
  | back v w ws dfs dfs2 t t2 e hw h0 h1 _ ih =>
    exact During.afterBack v w ws dfs dfs2 t e hw h0 h1 ih
  | cross v w ws dfs dfs2 t t2 e hw h0 h1 _ ih =>
    exact During.afterCross v w ws dfs dfs2 t e hw h0 h1 ih
  | visit v dfs dfs2 t t2 e e2 hv r hv2 _ =>
    exact During.atExit v dfs dfs2 t t2 e e2 hv r hv2

theorem fireEdge_captured (Q : σ → Prop) (f : Option (String → String → σ → σ))
    (v w : String) (dfs : configInheritanceDFS σ)
    (hf : ∀ k, f = some k → Q (k v w dfs.captured)) (hq : Q dfs.captured) :
    Q (fireEdge f v w dfs).captured := by
  cases f with
  | none => exact hq
  | some k => exact hf k rfl

theorem fireVertex_captured (Q : σ → Prop) (f : Option (String → σ → σ))
    (v : String) (dfs : configInheritanceDFS σ)
    (hf : ∀ k, f = some k → Q (k v dfs.captured)) (hq : Q dfs.captured) :
    Q (fireVertex f v dfs).captured := by
  cases f with
  | none => exact hq
  | some k => exact hf k rfl

/-- What the observers see: a property `Q` of the captured variables that every
observer keeps, and that `onBack` keeps when called with an edge `v -> w` such
that `w` reaches `v`, holds when the activation returns.  So `onBack` is only
called with such edges, whatever it does. -/
theorem Run.observed {c : Call} {dfs dfs1 : configInheritanceDFS σ} {t t1 : Nat} (Q : σ → Prop)
    (hB : ∀ k, obs.onBack = some k → ∀ v w s, w ∈ adj g v → Reach g w v → Q s → Q (k v w s))
    (hT : ∀ k, obs.onTree = some k → ∀ v w s, Q s → Q (k v w s))
    (hC : ∀ k, obs.onCross = some k → ∀ v w s, Q s → Q (k v w s))
    (hS : ∀ k, obs.onStart = some k → ∀ v s, Q s → Q (k v s))
    (hF : ∀ k, obs.onFinish = some k → ∀ v s, Q s → Q (k v s))
    (h : Run g obs c dfs t dfs1 t1) :
    Inv g dfs → 1 ≤ t → c.pre dfs → c.wf g →
      (∀ x ∈ dfs.started, x ∉ dfs.finished → Reach g x c.current) →
      Q dfs.captured → Q dfs1.captured := by
  induction h with
  | done v dfs t => intro _ _ _ _ _ hq; exact hq
  | tree v w ws dfs dfs1 dfs2 t t1 t2 e hw h0 r1 _ ih1 ih2 =>
    intro hinv ht _ hwf hst hq
    have hwn : w ∉ dfs.started := fun hm => ((hinv.st w e hw).2 hm) h0
    have hi0 : Inv g (fireEdge obs.onTree v w dfs) := hinv.congr (by simp) (by simp) (by simp)
    have hp0 : (Call.vertex w).pre (fireEdge obs.onTree v w dfs) := by
      simpa [Call.pre] using hwn
    have hedge : w ∈ adj g v := hwf w (List.mem_cons_self _ _)
    have f1 := r1.frame hi0 (by omega) hp0
    obtain ⟨n1, hn1, _, hn1s⟩ := f1.grow
    simp only [fireEdge_finished, fireEdge_started] at hn1 hn1s
    have q1 := ih1 hi0 (by omega) hp0 trivial
      (by
        intro x hx hxf
        simp only [fireEdge_finished, fireEdge_started] at hx hxf
        exact Relation.ReflTransGen.tail (hst x hx hxf) hedge)
      (fireEdge_captured Q _ v w dfs (fun k hk => hT k hk v w _ hq) hq)
    refine ih2 f1.inv (by have := f1.time; omega) trivial
      (fun x hx => hwf x (List.mem_cons_of_mem _ hx)) ?_ q1
    intro x hx hxf
    rw [hn1, List.mem_append, not_or] at hxf
    rcases (hn1s x).1 hx with hx | hx
    · exact hst x hx hxf.1
    · exact absurd hx hxf.2
  | back v w ws dfs dfs2 t t2 e hw h0 h1 _ ih =>
    intro hinv ht _ hwf hst hq
    have hws : w ∈ dfs.started := (hinv.st w e hw).1 h0
    have hwnf : w ∉ dfs.finished := fun hm => ((hinv.fi w e hw).2 hm) h1
    have hedge : w ∈ adj g v := hwf w (List.mem_cons_self _ _)
    refine ih (hinv.congr (by simp) (by simp) (by simp)) ht trivial
      (fun x hx => hwf x (List.mem_cons_of_mem _ hx)) ?_
      (fireEdge_captured Q _ v w dfs
        (fun k hk => hB k hk v w _ hedge (hst w hws hwnf) hq) hq)
    intro x hx hxf
    simp only [fireEdge_finished, fireEdge_started] at hx hxf
    exact hst x hx hxf
  | cross v w ws dfs dfs2 t t2 e hw h0 h1 _ ih =>
    intro hinv ht _ hwf hst hq
    refine ih (hinv.congr (by simp) (by simp) (by simp)) ht trivial
      (fun x hx => hwf x (List.mem_cons_of_mem _ hx)) ?_
      (fireEdge_captured Q _ v w dfs (fun k hk => hC k hk v w _ hq) hq)
    intro x hx hxf
    simp only [fireEdge_finished, fireEdge_started] at hx hxf
    exact hst x hx hxf
  | visit v dfs dfs2 t t2 e e2 hv r hv2 ih =>
    intro hinv ht hpre _ hst hq
    have q2 := ih (@Inv.start σ g obs dfs hinv v e hv t ht) ht trivial (fun w hw => hw)
      (by
        intro x hx hxf
        simp only [fireVertex_finished, fireVertex_started, List.mem_append,
          List.mem_singleton] at hx hxf
        rcases hx with hx | rfl
        · exact hst x hx hxf
        · exact Relation.ReflTransGen.refl)
      (fireVertex_captured Q _ v _ (fun k hk => hS k hk v _ hq) hq)
    exact fireVertex_captured Q _ v _ (fun k hk => hF k hk v _ q2) q2

theorem closedFrom_edge {v w : String} (h : ClosedFrom g v) (hw : w ∈ adj g v) :
    isKey g w = true ∧ ClosedFrom g w :=
  ⟨h v w Relation.ReflTransGen.refl hw,
    fun x y hx hy => h x y (Relation.ReflTransGen.head hw hx) hy⟩

/-- The loop returns when the recursive calls do and all targets are keys from
which only keys are reachable. -/
theorem visitEdges_safe
    {recur : configInheritanceDFS σ → Nat → String → Outcome (configInheritanceDFS σ × Nat)}
    {n : Nat}
    (hrun : ∀ dfs t w dfs1 t1, recur dfs t w = .ok (dfs1, t1) → Run g obs (.vertex w) dfs t dfs1 t1)
    (hrec : ∀ dfs t w, Inv g dfs → 1 ≤ t → w ∉ dfs.started → unstarted g dfs < n →
      isKey g w = true → ClosedFrom g w → ∃ r, recur dfs t w = .ok r)
    (v : String) (ws : List String) :
    ∀ (dfs : configInheritanceDFS σ) (t : Nat), Inv g dfs → 1 ≤ t → unstarted g dfs < n →
      (∀ w ∈ ws, isKey g w = true ∧ ClosedFrom g w) →
      ∃ r, visitEdges obs recur v ws dfs t = .ok r := by
  induction ws with
  | nil => intro dfs t _ _ _ _; exact ⟨(dfs, t), rfl⟩
  | cons w ws ih =>
    intro dfs t hinv ht hn hws
    have hk := hws w (List.mem_cons_self _ _)
    have hrest : ∀ x ∈ ws, isKey g x = true ∧ ClosedFrom g x :=
      fun x hx => hws x (List.mem_cons_of_mem _ hx)
    unfold visitEdges
    cases hw : dfs.log w with
    | none => exact absurd hw ((hinv.dom w).2 hk.1)
    | some e =>
      simp only
      by_cases h0 : e.start = 0
      · simp only [h0, if_true]
        have hwn : w ∉ dfs.started := fun hm => ((hinv.st w e hw).2 hm) h0
        have hi0 : Inv g (fireEdge obs.onTree v w dfs) :=
          hinv.congr (by simp) (by simp) (by simp)
        have hu0 : unstarted g (fireEdge obs.onTree v w dfs) < n :=
          lt_of_le_of_lt (unstarted_mono (by simp)) hn
        obtain ⟨⟨dfs1, t1⟩, hc⟩ := hrec (fireEdge obs.onTree v w dfs) (t + 1) w hi0 (by omega)
          (by simpa using hwn) hu0 hk.1 hk.2
        simp only [hc]
        have f := (hrun _ _ _ _ _ hc).frame hi0 (by omega) (by simpa [Call.pre] using hwn)
        obtain ⟨m, _, _, hms⟩ := f.grow
        exact ih dfs1 t1 f.inv (by have := f.time; omega)
          (lt_of_le_of_lt (unstarted_mono (fun x hx => (hms x).2 (Or.inl hx))) hu0) hrest
      · simp only [h0, if_false]
        by_cases h1 : e.finish = 0
        · simp only [h1, if_true]
          exact ih (fireEdge obs.onBack v w dfs) t (hinv.congr (by simp) (by simp) (by simp))
            ht (lt_of_le_of_lt (unstarted_mono (by simp)) hn) hrest
        · simp only [h1, if_false]
          exact ih (fireEdge obs.onCross v w dfs) t (hinv.congr (by simp) (by simp) (by simp))
            ht (lt_of_le_of_lt (unstarted_mono (by simp)) hn) hrest

/-- A call of `visit` on an unstarted key from which only keys are reachable returns,
with a budget larger than the number of unstarted keys. -/
theorem visit_safe (n : Nat) :
    ∀ (dfs : configInheritanceDFS σ) (t : Nat) (v : String), Inv g dfs → 1 ≤ t →
      v ∉ dfs.started → unstarted g dfs < n → isKey g v = true → ClosedFrom g v →
      ∃ r, visit g obs n dfs t v = .ok r := by
  induction n with
  | zero => intro dfs t v _ _ _ h; omega
  | succ n ih =>
    intro dfs t v hinv ht hvn hn hk hcl
    unfold visit
    cases hv : dfs.log v with
    | none => exact absurd hv ((hinv.dom v).2 hk)
    | some e =>
      simp only
      have hi1 := @Inv.start σ g obs dfs hinv v e hv t ht
      have hu1 : unstarted g (fireVertex obs.onStart v
          { dfs with log := setStart dfs.log v e t, started := dfs.started ++ [v] }) < n := by
        have := @unstarted_start σ g dfs (fireVertex obs.onStart v
          { dfs with log := setStart dfs.log v e t, started := dfs.started ++ [v] }) v hk hvn
            (by simp)
        omega
      obtain ⟨⟨dfs2, t2⟩, hc⟩ := @visitEdges_safe σ g obs _ n
        (fun _ _ _ _ _ h => visit_run n _ _ _ _ _ h) ih v (adj g v) _ t hi1 ht hu1
        (fun w hw => closedFrom_edge hcl hw)
      simp only [hc]
      have f := (visitEdges_run (fun _ _ _ _ _ h => visit_run n _ _ _ _ _ h) v _ _ _ _ _ hc).frame
        hi1 ht trivial
      cases hv2 : dfs2.log v with
      | none => exact absurd hv2 ((f.inv.dom v).2 hk)
      | some e2 => exact ⟨_, rfl⟩

/-- On a graph whose edge targets are keys, the traversal `HasCycles` runs from a
key returns, the same state and counter for every budget above the number of
entries of the graph. -/
theorem hasCycles_visit_ok (hg : TargetsAreKeys g) {start : String}
    (hs : isKey g start = true) :
    ∃ dfs t,
      (∀ fuel, g.length < fuel →
        visit g hasCyclesObservers fuel (hasCyclesInit g) 1 start = .ok (dfs, t)) ∧
      Run g hasCyclesObservers (.vertex start) (freshState g false) 1 dfs t ∧
      HasCycles g start = .ok (dfs.captured, dfs.finished) := by
  have hret := @visit_returns Bool g hasCyclesObservers (g.length + 1) (hasCyclesInit g) 1 start
    (inv_init g) (le_refl 1) (by simp [hasCyclesInit])
    (Nat.lt_succ_of_le (unstarted_init_le g _))
  cases hc : visit g hasCyclesObservers (g.length + 1) (hasCyclesInit g) 1 start with
  | nilDeref => exact absurd hc (hret.2 hg hs)
  | outOfFuel => exact absurd hc hret.1
  | ok r =>
    obtain ⟨dfs, t⟩ := r
    refine ⟨dfs, t, ?_, visit_run _ _ _ _ _ _ hc, by simp [HasCycles, HasCyclesFuel, hc]⟩
    intro fuel hfuel
    rw [visit_fuel_le (Nat.succ_le_of_lt hfuel) _ _ _ (by rw [hc]; simp), hc]

/-- The merge loop, when it returns, found an entry under every key and returns
the left fold of `Merge` over these entries, in the order of the keys. -/
theorem mergeAll_fold {E : Type} (ops : EntryOps E) (c : Collection E) :
    ∀ (keys : List String) (env r : E), mergeAll ops c keys env = .ok r →
      (∀ k ∈ keys, (c.lookup k).isSome = true) ∧
        r = (keys.filterMap (fun k => c.lookup k)).foldl ops.merge env
  | [], env, r, h => by
    simp only [mergeAll, Outcome.ok.injEq] at h
    subst h
    exact ⟨by simp, rfl⟩
  | k :: keys, env, r, h => by
    simp only [mergeAll] at h
    cases hk : c.lookup k with
    | none => simp [hk] at h
    | some e =>
      simp only [hk] at h
      obtain ⟨h1, h2⟩ := mergeAll_fold ops c keys _ r h
      refine ⟨?_, ?_⟩
      · intro x hx
        rcases List.mem_cons.1 hx with rfl | hx
        · simp [hk]
        · exact h1 x hx
      · simp only [List.filterMap_cons, hk, List.foldl_cons]
        exact h2

/-- An activation does not change the start stamp of a vertex that was started
before it was entered. -/
theorem Run.keeps {c : Call} {dfs dfs1 : configInheritanceDFS σ} {t t1 : Nat}
    (h : Run g obs c dfs t dfs1 t1) :
    Inv g dfs → 1 ≤ t → c.pre dfs →
      ∀ x ∈ dfs.started, startOf dfs1.log x = startOf dfs.log x := by
  induction h with
  | done v dfs t => intro _ _ _ x _; rfl
  | tree v w ws dfs dfs1 dfs2 t t1 t2 e hw h0 r1 _ ih1 ih2 =>
    intro hinv ht _ x hx
    have hwn : w ∉ dfs.started := fun hm => ((hinv.st w e hw).2 hm) h0
    have hi0 : Inv g (fireEdge obs.onTree v w dfs) := hinv.congr (by simp) (by simp) (by simp)
    have hp0 : (Call.vertex w).pre (fireEdge obs.onTree v w dfs) := by
      simpa [Call.pre] using hwn
    have f1 := r1.frame hi0 (by omega) hp0
    obtain ⟨n1, _, _, hn1s⟩ := f1.grow
    have k1 := ih1 hi0 (by omega) hp0 x (by simpa using hx)
    have k2 := ih2 f1.inv (by have := f1.time; omega) trivial x
      ((hn1s x).2 (Or.inl (by simpa using hx)))
    rw [k2, k1, fireEdge_log]
  | back v w ws dfs dfs2 t t2 e hw h0 h1 _ ih =>
    intro hinv ht _ x hx
    have := ih (hinv.congr (by simp) (by simp) (by simp)) ht trivial x (by simpa using hx)
    rw [this, fireEdge_log]
  | cross v w ws dfs dfs2 t t2 e hw h0 h1 _ ih =>
    intro hinv ht _ x hx
    have := ih (hinv.congr (by simp) (by simp) (by simp)) ht trivial x (by simpa using hx)
    rw [this, fireEdge_log]
  | visit v dfs dfs2 t t2 e e2 hv r hv2 ih =>
    intro hinv ht hpre x hx
    have hvn : v ∉ dfs.started := hpre
    have hxv : x ≠ v := fun h => hvn (h ▸ hx)
    have k := ih (@Inv.start σ g obs dfs hinv v e hv t ht) ht trivial x
      (by simp [hx])
    simp only [fireVertex_log] at k ⊢
    rw [startOf_setFinish hv2, k, startOf_setStart]
    simp [hxv]

/-- The stamps of the start vertex: a traversal `visit(1, start)` that returns has
given `start` the start stamp `1` and returns its finish stamp. -/
theorem Run.ends {c0 : σ} {start : String} {dfs : configInheritanceDFS σ} {t : Nat}
    (h : Run g obs (.vertex start) (freshState g c0) 1 dfs t) :
    startOf dfs.log start = 1 ∧ finishOf dfs.log start = t := by
  cases h with
  | visit _ _ dfs2 _ t2 e e2 hv r hv2 =>
    have hi1 := @Inv.start σ g obs (freshState g c0) (inv_fresh g c0) start e hv 1 (le_refl 1)
    have k := r.keeps hi1 (le_refl 1) trivial start (by simp)
    simp only [fireVertex_log] at k ⊢
    refine ⟨?_, ?_⟩
    · rw [startOf_setFinish hv2, k, startOf_setStart]
      simp
    · rw [finishOf_setFinish]
      simp

end Lemmas

section Claims

/-- C1: on an acyclic graph whose edge targets are keys, `HasCycles` of a key
returns a duplicate-free merge order in which, whenever `u` reaches `w` along one
or more edges and both are listed, `w` stands at a smaller index than `u`; this
for every iteration order of the adjacency sets, the adjacency lists being
arbitrary. -/
theorem C1_dependencies_precede (g : configInheritanceGraph) (start : String)
    (hg : TargetsAreKeys g) (hs : isKey g start = true) (hac : ¬ Cyclic g) :
    ∃ b order, HasCycles g start = .ok (b, order) ∧ order.Nodup ∧
      ∀ u w, ReachPlus g u w → u ∈ order → w ∈ order →
        order.indexOf w < order.indexOf u := by
  obtain ⟨b, order, hres, r⟩ := HasCycles_resolved hg hs
  refine ⟨b, order, hres, r.nodup, ?_⟩
  have hb : b = false := by
    cases hb : b with
    | false => rfl
    | true =>
      obtain ⟨x, _, hx⟩ := r.cyclic hb
      exact absurd ⟨x, hx⟩ hac
  intro u w huw hu _
  exact (index_lt_of_reachPlus (r.ordered hb) huw hu).2

/-- C2: on a graph whose edge targets are keys, cyclic or not, `HasCycles` of a key
returns a merge order without duplicates whose members are exactly the vertices
reachable from the start vertex. -/
theorem C2_order_is_reachable_set (g : configInheritanceGraph) (start : String)
    (hg : TargetsAreKeys g) (hs : isKey g start = true) :
    ∃ b order, HasCycles g start = .ok (b, order) ∧ order.Nodup ∧
      ∀ x, x ∈ order ↔ Reach g start x := by
  obtain ⟨b, order, hres, r⟩ := HasCycles_resolved hg hs
  exact ⟨b, order, hres, r.nodup, r.mem_iff⟩

/-- C4: on a graph whose edge targets are keys, if some vertex reachable from the
start key lies on a cycle (a self-loop included), `HasCycles` returns the flag
`true`. -/
theorem C4_reachable_cycle_is_flagged (g : configInheritanceGraph) (start : String)
    (hg : TargetsAreKeys g) (hs : isKey g start = true)
    (hc : ∃ x, Reach g start x ∧ ReachPlus g x x) :
    ∃ order, HasCycles g start = .ok (true, order) := by
  obtain ⟨b, order, hres, r⟩ := HasCycles_resolved hg hs
  cases hb : b with
  | true => exact ⟨order, by rw [← hb]; exact hres⟩
  | false =>
    obtain ⟨x, hx, hxx⟩ := hc
    have hm := (r.mem_iff x).2 hx
    exact absurd (index_lt_of_reachPlus (r.ordered hb) hxx hm).2 (lt_irrefl _)

/-- C1 at the graph `diamond`, resolved from `app`. -/
theorem C1_dependencies_precede_witness :
    TargetsAreKeys diamond ∧ isKey diamond "app" = true ∧
      ∃ b order, HasCycles diamond "app" = .ok (b, order) ∧ order.Nodup ∧
        ∀ u w, ReachPlus diamond u w → u ∈ order → w ∈ order →
          order.indexOf w < order.indexOf u :=
  ⟨targetsAreKeys_of_checked (by decide), by decide,
    C1_dependencies_precede diamond "app" (targetsAreKeys_of_checked (by decide)) (by decide)
      (acyclic_of_rankChecked ["base", "web", "db", "app"] (by decide))⟩

/-- C2 at the cyclic graph `looped`, resolved from `a`. -/
theorem C2_order_is_reachable_set_witness :
    TargetsAreKeys looped ∧ isKey looped "a" = true ∧
      ∃ b order, HasCycles looped "a" = .ok (b, order) ∧ order.Nodup ∧
        ∀ x, x ∈ order ↔ Reach looped "a" x :=
  ⟨targetsAreKeys_of_checked (by decide), by decide,
    C2_order_is_reachable_set looped "a" (targetsAreKeys_of_checked (by decide)) (by decide)⟩

/-- C4 at the graph `looped`: the cycle `a`, `b`, `a` is reachable from `a`. -/
theorem C4_reachable_cycle_is_flagged_witness :
    TargetsAreKeys looped ∧ isKey looped "a" = true ∧
      (∃ x, Reach looped "a" x ∧ ReachPlus looped x x) ∧
      ∃ order, HasCycles looped "a" = .ok (true, order) :=
  have hab : Edge looped "a" "b" := by unfold Edge; decide
  have hba : Edge looped "b" "a" := by unfold Edge; decide
  have hc : ∃ x, Reach looped "a" x ∧ ReachPlus looped x x :=
    ⟨"a", Relation.ReflTransGen.refl, Relation.TransGen.tail (Relation.TransGen.single hab) hba⟩
  ⟨targetsAreKeys_of_checked (by decide), by decide, hc,
    C4_reachable_cycle_is_flagged looped "a" (targetsAreKeys_of_checked (by decide))
      (by decide) hc⟩

/-- C5: for a chain `vs = [v1, ..., vn]` of distinct names in which `v1` has no
parents and each further name has exactly its predecessor as parent,
`HasCycles(vn)` returns the flag `false` and the merge order `vs`. -/
theorem C5_chain_order (g : configInheritanceGraph) (vs : List String) (hne : vs ≠ [])
    (hnd : vs.Nodup) (hch : chainDown g vs.reverse = true) :
    HasCycles g (vs.getLast hne) = .ok (false, vs) :=
  HasCycles_chain_getLast vs hne hnd hch

/-- C5 at the three-level scenario: resolving `prod` yields `[base, staging, prod]`. -/
theorem C5_chain_order_witness :
    HasCycles threeLevel "prod" = .ok (false, ["base", "staging", "prod"]) :=
  C5_chain_order threeLevel ["base", "staging", "prod"] (by decide) (by decide) (by decide)

/-- C6: when the environments named by `vs` form a chain and `Merge` lets the
argument's non-empty value of the field `F` overwrite the receiver's,
`Environment` of the last name of the chain returns an entry whose `F` is the
value of `F` in the nearest entry, walking from that name toward the root, that
sets it non-empty, and is empty if none does. -/
theorem C6_nearest_field_wins {E P : Type} (ops : EntryOps E) (F : E → String)
    (hzero : F ops.zero = "")
    (hmerge : ∀ acc other, F (ops.merge acc other) = if F other = "" then F acc else F other)
    (config : Gonew E P) (vs : List String) (hne : vs ≠ []) (hnd : vs.Nodup)
    (hch : chainDown (inheritanceGraph ops (entries config.Environments)) vs.reverse = true) :
    ∃ env, config.Environment ops (vs.getLast hne) = .ok (.ok env) ∧
      F env = nearest F (entries config.Environments) "" vs.reverse := by
  have hord := HasCycles_chain_getLast (g := inheritanceGraph ops (entries config.Environments))
    vs hne hnd hch
  have hkeys := chainDown_isKey _ hch
  have hall : ∀ k ∈ vs, ((entries config.Environments).lookup k).isSome = true := by
    intro k hk
    rw [← isKey_inheritanceGraph ops]
    exact hkeys k (List.mem_reverse.2 hk)
  obtain ⟨env, henv⟩ := mergeAll_ok ops (entries config.Environments) vs ops.zero hall
  obtain ⟨e, he⟩ := Option.isSome_iff_exists.1 (hall _ (List.getLast_mem hne))
  refine ⟨env, by simp [Gonew.Environment, resolveEntry, he, hord, henv], ?_⟩
  rw [mergeAll_nearest ops _ F hmerge vs ops.zero env henv, hzero]

/-- C6 at a parent `P` with `F = "base"` and a child `C`: with `F` unset in `C`
the resolved value is `"base"`, and with `F = "child"` in `C` it is `"child"`. -/
theorem C6_nearest_field_wins_witness :
    chainDown (inheritanceGraph sampleOps (entries (parentChild "").Environments))
        ["P", "C"].reverse = true ∧
      (∃ env, (parentChild "").Environment sampleOps "C" = .ok (.ok env) ∧ env.F = "base") ∧
      (∃ env, (parentChild "child").Environment sampleOps "C" = .ok (.ok env) ∧
        env.F = "child") := by
  refine ⟨by decide, ?_, ?_⟩
  · obtain ⟨env, h1, h2⟩ := C6_nearest_field_wins sampleOps SampleEntry.F rfl (fun _ _ => rfl)
      (parentChild "") ["P", "C"] (by decide) (by decide) (by decide)
    exact ⟨env, h1, h2.trans (by decide)⟩
  · obtain ⟨env, h1, h2⟩ := C6_nearest_field_wins sampleOps SampleEntry.F rfl (fun _ _ => rfl)
      (parentChild "child") ["P", "C"] (by decide) (by decide) (by decide)
    exact ⟨env, h1, h2.trans (by decide)⟩

/-- C7: when every edge target of the two inheritance graphs is a key,
`Environment(name)` returns a nil entry with a non-nil error exactly when `name`
is not a key of `Environments`; the error is then `"unknown environment: "`
followed by the name, and otherwise an entry is returned with a nil error.
Likewise `Project(name)`, with `Projects` and `"unknown project: "`. -/
theorem C7_not_found_iff_absent {E P : Type} (envOps : EntryOps E) (projOps : EntryOps P)
    (config : Gonew E P) (name : String)
    (hE : TargetsAreKeys (inheritanceGraph envOps (entries config.Environments)))
    (hP : TargetsAreKeys (inheritanceGraph projOps (entries config.Projects))) :
    (((∃ err, config.Environment envOps name = .ok (.error err)) ↔
        (entries config.Environments).lookup name = none) ∧
      ((entries config.Environments).lookup name = none →
        config.Environment envOps name =
          .ok (.error (.text ("unknown environment: " ++ name)))) ∧
      ((entries config.Environments).lookup name ≠ none →
        ∃ env, config.Environment envOps name = .ok (.ok env))) ∧
    (((∃ err, config.Project projOps name = .ok (.error err)) ↔
        (entries config.Projects).lookup name = none) ∧
      ((entries config.Projects).lookup name = none →
        config.Project projOps name = .ok (.error (.text ("unknown project: " ++ name)))) ∧
      ((entries config.Projects).lookup name ≠ none →
        ∃ env, config.Project projOps name = .ok (.ok env))) := by
  refine ⟨⟨⟨?_, ?_⟩, ?_, ?_⟩, ⟨?_, ?_⟩, ?_, ?_⟩
  · rintro ⟨err, h⟩
    exact resolveEntry_error _ _ _ _ err h
  · intro h
    exact ⟨_, resolveEntry_absent _ _ _ _ h⟩
  · exact resolveEntry_absent _ _ _ _
  · intro h
    obtain ⟨_, _, env, _, _, _, henv⟩ := resolveEntry_ok envOps "unknown environment: "
      (entries config.Environments) name hE (Option.isSome_iff_ne_none.2 h)
    exact ⟨env, henv⟩
  · rintro ⟨err, h⟩
    exact resolveEntry_error _ _ _ _ err h
  · intro h
    exact ⟨_, resolveEntry_absent _ _ _ _ h⟩
  · exact resolveEntry_absent _ _ _ _
  · intro h
    obtain ⟨_, _, env, _, _, _, henv⟩ := resolveEntry_ok projOps "unknown project: "
      (entries config.Projects) name hP (Option.isSome_iff_ne_none.2 h)
    exact ⟨env, henv⟩

/-- C7 at the configuration `parentChild ""` and the name `staging`, which is a key
of neither collection. -/
theorem C7_not_found_iff_absent_witness :
    (parentChild "").Environment sampleOps "staging" =
        .ok (.error (.text "unknown environment: staging")) ∧
      (parentChild "").Project sampleOps "staging" =
        .ok (.error (.text "unknown project: staging")) :=
  have h := C7_not_found_iff_absent sampleOps sampleOps (parentChild "") "staging"
    (targetsAreKeys_of_checked (by decide)) (targetsAreKeys_of_checked (by decide))
  ⟨h.1.2.1 (by decide), h.2.2.1 (by decide)⟩

/-- C8: when the inheritance graph of a collection has every edge target as a key
and a cycle is reachable from a present name, `HasCycles` computes the flag
`true` and a finite merge order (duplicate-free, the names reachable from the
requested one, that one last), every name of which has an entry; and
`Environment` (the collection being `Environments`) and `Project` (the
collection being `Projects`) still return a nil error, with the entry that is
the left fold of `Merge` over the entries named by that order, starting from the
zero entry. -/
theorem C8_cycle_is_not_an_error {E : Type} (ops : EntryOps E) (c : Collection E)
    (name : String) (hg : TargetsAreKeys (inheritanceGraph ops c))
    (hk : (c.lookup name).isSome = true)
    (hc : ∃ x, Reach (inheritanceGraph ops c) name x ∧ ReachPlus (inheritanceGraph ops c) x x) :
    ∃ order env, HasCycles (inheritanceGraph ops c) name = .ok (true, order) ∧
      order.Nodup ∧ (∀ x, x ∈ order ↔ Reach (inheritanceGraph ops c) name x) ∧
      order.getLast? = some name ∧
      (∀ k ∈ order, (c.lookup k).isSome = true) ∧
      env = (order.filterMap (fun k => c.lookup k)).foldl ops.merge ops.zero ∧
      mergeAll ops c order ops.zero = .ok env ∧
      (∀ (P : Type) (d : Defaults) (ts : List String) (ps : Option (Collection P)),
        Gonew.Environment ops ⟨d, some c, ts, ps⟩ name = .ok (.ok env)) ∧
      (∀ (E1 : Type) (d : Defaults) (ts : List String) (es : Option (Collection E1)),
        Gonew.Project ops ⟨d, es, ts, some c⟩ name = .ok (.ok env)) := by
  obtain ⟨b, order, env, hres, r, hm, _⟩ := resolveEntry_ok ops "" c name hg hk
  have hb : b = true := by
    cases hb : b with
    | true => rfl
    | false =>
      obtain ⟨x, hx, hxx⟩ := hc
      have hmem := (r.mem_iff x).2 hx
      exact absurd (index_lt_of_reachPlus (r.ordered hb) hxx hmem).2 (lt_irrefl _)
  subst hb
  obtain ⟨e, he⟩ := Option.isSome_iff_exists.1 hk
  obtain ⟨hall, hfold⟩ := mergeAll_fold ops c order ops.zero env hm
  obtain ⟨l, hl⟩ := r.last
  refine ⟨order, env, hres, r.nodup, r.mem_iff, by simp [hl], hall, hfold, hm, ?_, ?_⟩
  · intro P d ts ps
    simp [Gonew.Environment, entries, resolveEntry, he, hres, hm]
  · intro E1 d ts es
    simp [Gonew.Project, entries, resolveEntry, he, hres, hm]

/-- C8 at two entries inheriting from each other, resolved from `a`: the flag is
`true`, the merge order is `b`, `a`, and both resolvers return, with a nil error,
the entry `Merge` builds from the zero entry, then `b`, then `a`. -/
theorem C8_cycle_is_not_an_error_witness :
    TargetsAreKeys (inheritanceGraph sampleOps twoCycle) ∧
      (∃ x, Reach (inheritanceGraph sampleOps twoCycle) "a" x ∧
        ReachPlus (inheritanceGraph sampleOps twoCycle) x x) ∧
      HasCycles (inheritanceGraph sampleOps twoCycle) "a" = .ok (true, ["b", "a"]) ∧
      Gonew.Environment sampleOps
          ⟨⟨"", ""⟩, some twoCycle, [], (none : Option (Collection SampleEntry))⟩ "a" =
        .ok (.ok (sampleOps.merge (sampleOps.merge sampleOps.zero ⟨["a"], "y"⟩) ⟨["b"], "x"⟩)) ∧
      Gonew.Project sampleOps
          ⟨⟨"", ""⟩, (none : Option (Collection SampleEntry)), [], some twoCycle⟩ "a" =
        .ok (.ok ⟨["a", "b"], "x"⟩) := by
  have hab : Edge (inheritanceGraph sampleOps twoCycle) "a" "b" := by unfold Edge; decide
  have hba : Edge (inheritanceGraph sampleOps twoCycle) "b" "a" := by unfold Edge; decide
  have hc : ∃ x, Reach (inheritanceGraph sampleOps twoCycle) "a" x ∧
      ReachPlus (inheritanceGraph sampleOps twoCycle) x x :=
    ⟨"a", Relation.ReflTransGen.refl, Relation.TransGen.tail (Relation.TransGen.single hab) hba⟩
  have hg : TargetsAreKeys (inheritanceGraph sampleOps twoCycle) :=
    targetsAreKeys_of_checked (by decide)
  obtain ⟨order, env, hres, _, _, _, _, hfold, _, henv, hproj⟩ :=
    C8_cycle_is_not_an_error sampleOps twoCycle "a" hg (by decide) hc
  have hval : HasCycles (inheritanceGraph sampleOps twoCycle) "a" = .ok (true, ["b", "a"]) := by
    decide
  have hord : order = ["b", "a"] := by
    rw [hval] at hres
    simp only [Outcome.ok.injEq, Prod.mk.injEq, true_and] at hres
    exact hres.symm
  subst hord
  have he : env = sampleOps.merge (sampleOps.merge sampleOps.zero ⟨["a"], "y"⟩) ⟨["b"], "x"⟩ :=
    hfold
  subst he
  exact ⟨hg, hc, hval, henv _ _ _ _, hproj _ _ _ _⟩

/-- C9, as the code behaves: for every graph and every start vertex that is not a
key, `HasCycles(start)` does not return a merge order; the first statement of
`visit` dereferences the nil log entry of `start` and panics, whatever the
recursion budget. -/
theorem C9_absent_start_panics (g : configInheritanceGraph) (start : String)
    (h : isKey g start = false) :
    HasCycles g start = .nilDeref ∧
      ∀ fuel, HasCyclesFuel (fuel + 1) g start = .nilDeref :=
  ⟨HasCyclesFuel_absent g start h g.length, HasCyclesFuel_absent g start h⟩

/-- C9, amended, at the three-level graph and the absent name `ghost`. -/
theorem C9_absent_start_panics_witness :
    isKey threeLevel "ghost" = false ∧ HasCycles threeLevel "ghost" = .nilDeref ∧
      ∀ fuel, HasCyclesFuel (fuel + 1) threeLevel "ghost" = .nilDeref :=
  ⟨by decide, C9_absent_start_panics threeLevel "ghost" (by decide)⟩

/-- C9 as stated fails: on the empty graph, `HasCycles` of a name that is not a
key panics instead of returning an empty merge order. -/
theorem C9_absent_start_counterexample :
    isKey [] "x" = false ∧ HasCycles [] "x" = .nilDeref ∧
      HasCycles [] "x" ≠ .ok (false, []) ∧ HasCycles [] "x" ≠ .ok (true, []) := by
  decide

/-- C10 fails on the code: with `Environments` and `ExternalTemplates` valid, the
`Projects` map nil and an empty `Default`, the `Projects` check yields the error
`Projects: missing`, and `Validate` nevertheless returns nil. -/
theorem C10_projects_error_is_dropped :
    projectsError sampleCollaborators noProjects =
        some (.property "Projects" (.text "missing")) ∧
      Gonew.Validate sampleCollaborators noProjects = .ok none := by
  decide

/-- C11 fails on the code: in a configuration that is valid otherwise, with
`Default.Project = "ghost"` not a key of `Projects` and `Default.Environment`
empty, the resolver reports `ghost` as unknown, and `Validate` nevertheless
returns nil, the project check being guarded by `Default.Environment`. -/
theorem C11_default_project_unchecked :
    defaultProjectOnly.Default.Project ≠ "" ∧
      defaultProjectOnly.Project sampleOps "ghost" =
        .ok (.error (.text "unknown project: ghost")) ∧
      Gonew.Validate sampleCollaborators defaultProjectOnly = .ok none :=
  ⟨by decide, rfl, by decide⟩

/-- C12 fails on the code: in a valid configuration whose `Default.Environment`
names the existing environment `dev` and whose `Default.Project` is empty,
`Validate` resolves the project named by the empty string and returns the error
`Default: Environment: unknown project: ` instead of nil. -/
theorem C12_empty_default_project_checked :
    defaultEnvironmentOnly.Default.Project = "" ∧
      (∃ env, defaultEnvironmentOnly.Environment sampleOps "dev" = .ok (.ok env)) ∧
      Gonew.Validate sampleCollaborators defaultEnvironmentOnly =
        .ok (some (.property "Default" (.property "Environment"
          (.text "unknown project: ")))) :=
  ⟨by decide, ⟨⟨[], ""⟩, rfl⟩, by decide⟩

/-- C13: for every configuration whose `Environments` is the empty non-nil map,
`Validate` returns the error `empty` on the path `Environments`, whatever the
other fields and collaborators; and when `Environments` is nil it returns the
error `missing` on that path. -/
theorem C13_empty_environments {E P : Type} (col : Collaborators E P) (d : Defaults)
    (ts : List String) (ps : Option (Collection P)) :
    Gonew.Validate col ⟨d, some [], ts, ps⟩ =
        .ok (some (.property "Environments" (.text "empty"))) ∧
      Gonew.Validate col ⟨d, none, ts, ps⟩ =
        .ok (some (.property "Environments" (.text "missing"))) := by
  constructor <;> simp [Gonew.Validate, validate.PropertyFunc]

/-- C14: for every configuration whose non-empty `Environments` and whose
`ExternalTemplates` validate and whose `Default.Environment` is a non-empty name
that is not a key of `Environments`, `Validate` returns the resolver's error
`unknown environment: ` followed by the name, annotated with the path
`Default`, `Environment`. -/
theorem C14_unknown_default_environment {E P : Type} (col : Collaborators E P) (d : Defaults)
    (c : Collection E) (ts : List String) (ps : Option (Collection P))
    (hne : c ≠ []) (henv : col.validateEnvironments (some c) = none)
    (hts : validateTemplates col.stat 0 ts = none)
    (hd : d.Environment ≠ "") (hk : c.lookup d.Environment = none) :
    Gonew.Validate col ⟨d, some c, ts, ps⟩ =
      .ok (some (.property "Default" (.property "Environment"
        (.text ("unknown environment: " ++ d.Environment))))) := by
  have hlen : c.length ≠ 0 := fun h => hne (List.length_eq_zero.1 h)
  simp [Gonew.Validate, validate.PropertyFunc, hlen, henv, hts, validateDefault, hd,
    Gonew.Environment, entries, resolveEntry, hk, errorOf]

/-- C14 at `Default.Environment = "staging"` with `dev` the only environment. -/
theorem C14_unknown_default_environment_witness :
    Gonew.Validate sampleCollaborators unknownDefault =
      .ok (some (.property "Default" (.property "Environment"
        (.text "unknown environment: staging")))) :=
  C14_unknown_default_environment sampleCollaborators ⟨"staging", ""⟩ [("dev", ⟨[], ""⟩)] []
    (some [("app", ⟨[], ""⟩)]) (by decide) rfl rfl (by decide) (by decide)

/-- C15: on a graph whose edge targets are keys, if `HasCycles` of a key returns
the flag `true` then some vertex reachable from the start vertex lies on a
cycle, so that on an acyclic graph the flag is `false`; and an `onBack` observer
recording its arguments only ever records edges `v -> w` with `w` reaching `v`. -/
theorem C15_flag_implies_cycle (g : configInheritanceGraph) (start : String)
    (hg : TargetsAreKeys g) (hs : isKey g start = true) :
    ∃ b order, HasCycles g start = .ok (b, order) ∧
      (b = true → ∃ x, Reach g start x ∧ ReachPlus g x x) ∧
      (¬ Cyclic g → b = false) ∧
      ∀ (fuel : Nat) (dfs : configInheritanceDFS (List (String × String))) (t : Nat),
        visit g recordingObservers fuel (freshState g []) 1 start = .ok (dfs, t) →
        ∀ p ∈ dfs.captured, p.2 ∈ adj g p.1 ∧ Reach g p.2 p.1 := by
  obtain ⟨b, order, hres, r⟩ := HasCycles_resolved hg hs
  refine ⟨b, order, hres, r.cyclic, ?_, ?_⟩
  · intro hac
    cases hb : b with
    | false => rfl
    | true =>
      obtain ⟨x, _, hx⟩ := r.cyclic hb
      exact absurd ⟨x, hx⟩ hac
  · intro fuel dfs t hv
    have run := visit_run _ _ _ _ _ _ hv
    refine Run.observed (fun seen => ∀ p ∈ seen, p.2 ∈ adj g p.1 ∧ Reach g p.2 p.1)
      ?_ ?_ ?_ ?_ ?_ run (inv_fresh g []) (le_refl 1) (by simp [Call.pre, freshState]) trivial
      (by intro x hx; simp [freshState] at hx) (by intro p hp; simp [freshState] at hp)
    · intro k hk v w seen hedge hreach hq p hp
      simp only [recordingObservers, Option.some.injEq] at hk
      subst hk
      rcases List.mem_append.1 hp with hp | hp
      · exact hq p hp
      · rw [List.mem_singleton] at hp
        subst hp
        exact ⟨hedge, hreach⟩
    · intro k hk; simp [recordingObservers] at hk
    · intro k hk; simp [recordingObservers] at hk
    · intro k hk; simp [recordingObservers] at hk
    · intro k hk; simp [recordingObservers] at hk

/-- C15 at the cyclic graph `looped`, resolved from `a`. -/
theorem C15_flag_implies_cycle_witness :
    TargetsAreKeys looped ∧ isKey looped "a" = true ∧
      ∃ b order, HasCycles looped "a" = .ok (b, order) ∧
        (b = true → ∃ x, Reach looped "a" x ∧ ReachPlus looped x x) ∧
        (¬ Cyclic looped → b = false) ∧
        ∀ (fuel : Nat) (dfs : configInheritanceDFS (List (String × String))) (t : Nat),
          visit looped recordingObservers fuel (freshState looped []) 1 "a" = .ok (dfs, t) →
          ∀ p ∈ dfs.captured, p.2 ∈ adj looped p.1 ∧ Reach looped p.2 p.1 :=
  ⟨targetsAreKeys_of_checked (by decide), by decide,
    C15_flag_implies_cycle looped "a" (targetsAreKeys_of_checked (by decide)) (by decide)⟩

/-- C16: on a graph whose edge targets are keys, `visit(1, start)` from the fresh
state of `HasCycles` returns (for every recursion budget above the number of
entries of the graph) and visits exactly the vertices reachable from `start`,
each once; these are the vertices of the merge order of `HasCycles`.  The
returned counter is twice the number of visited vertices, hence at least `2`;
`start` has the start stamp `1` and the returned counter as finish stamp; every
visited vertex has a start stamp smaller than its finish stamp; the stamps of
the visited vertices are pairwise distinct and are exactly the integers from `1`
to the returned counter. -/
theorem C16_timestamps (g : configInheritanceGraph) (start : String)
    (hg : TargetsAreKeys g) (hs : isKey g start = true) :
    ∃ dfs t, visit g hasCyclesObservers (g.length + 1) (hasCyclesInit g) 1 start = .ok (dfs, t) ∧
      (∀ fuel, g.length < fuel →
        visit g hasCyclesObservers fuel (hasCyclesInit g) 1 start = .ok (dfs, t)) ∧
      HasCycles g start = .ok (dfs.captured, dfs.finished) ∧
      (∀ x, x ∈ dfs.started ↔ Reach g start x) ∧
      start ∈ dfs.started ∧ startOf dfs.log start = 1 ∧ finishOf dfs.log start = t ∧
      2 ≤ t ∧
      (∀ x, x ∈ dfs.started ↔ x ∈ dfs.finished) ∧ dfs.started.Nodup ∧
      dfs.started.length = dfs.finished.length ∧
      t = 2 * dfs.started.length ∧
      (∀ v ∈ dfs.started, 1 ≤ startOf dfs.log v ∧ startOf dfs.log v < finishOf dfs.log v ∧
        finishOf dfs.log v ≤ t) ∧
      (∀ u ∈ dfs.started, ∀ v ∈ dfs.started,
        (startOf dfs.log u = startOf dfs.log v → u = v) ∧
        (finishOf dfs.log u = finishOf dfs.log v → u = v) ∧
        startOf dfs.log u ≠ finishOf dfs.log v) ∧
      ∀ j, (1 ≤ j ∧ j ≤ t) ↔
        ((∃ v ∈ dfs.started, startOf dfs.log v = j) ∨
          (∃ v ∈ dfs.started, finishOf dfs.log v = j)) := by
  obtain ⟨dfs, t, hfuel, run, hhc⟩ := hasCycles_visit_ok hg hs
  obtain ⟨hinv, hst, hsf, hreach, _⟩ := run.fresh
  obtain ⟨hone, hlast⟩ := run.ends
  have hlen : dfs.started.length = dfs.finished.length :=
    ((List.perm_ext_iff_of_nodup hst.snodup hinv.nodup).2 hsf).length_eq
  have hmem : start ∈ dfs.started :=
    (hsf start).2 ((hreach start).2 Relation.ReflTransGen.refl)
  have htwo : 2 ≤ t := by
    have h1 := hst.sb start hmem
    have h2 := hst.fb start ((hsf start).1 hmem)
    omega
  refine ⟨dfs, t, hfuel _ (Nat.lt_succ_self _), hfuel, hhc,
    fun x => (hsf x).trans (hreach x), hmem, hone, hlast, htwo, hsf, hst.snodup, hlen,
    ?_, ?_, ?_, ?_⟩
  · have := hst.count; omega
  · intro v hv
    have h1 := hst.sb v hv
    have h2 := hst.fb v ((hsf v).1 hv)
    exact ⟨h1.1, h2.1, h2.2⟩
  · intro u hu v hv
    exact ⟨hst.si u hu v hv, hst.fi u ((hsf u).1 hu) v ((hsf v).1 hv),
      hst.sf u hu v ((hsf v).1 hv)⟩
  · intro j
    constructor
    · rintro ⟨h1, h2⟩
      rcases hst.onto j h1 h2 with ⟨v, hv, hj⟩ | ⟨v, hv, hj⟩
      · exact Or.inl ⟨v, hv, hj⟩
      · exact Or.inr ⟨v, (hsf v).2 hv, hj⟩
    · rintro (⟨v, hv, hj⟩ | ⟨v, hv, hj⟩)
      · have := hst.sb v hv
        omega
      · have h1 := hst.sb v hv
        have h2 := hst.fb v ((hsf v).1 hv)
        omega

/-- C16 at the graph `diamond`, traversed from `app`: four vertices are visited,
the returned counter is `8`, and the stamps are `app` (1, 8), `web` (2, 5),
`base` (3, 4), `db` (6, 7). -/
theorem C16_timestamps_witness :
    TargetsAreKeys diamond ∧ isKey diamond "app" = true ∧
      (match visit diamond hasCyclesObservers (diamond.length + 1) (hasCyclesInit diamond) 1
          "app" with
        | .ok (dfs, t) =>
          some (t, dfs.started, dfs.finished,
            ["app", "web", "base", "db"].map (fun v => (startOf dfs.log v, finishOf dfs.log v)))
        | .nilDeref => none
        | .outOfFuel => none) =
        some (8, ["app", "web", "base", "db"], ["base", "web", "db", "app"],
          [(1, 8), (2, 5), (3, 4), (6, 7)]) ∧
      ∃ dfs t, visit diamond hasCyclesObservers (diamond.length + 1) (hasCyclesInit diamond) 1
          "app" = .ok (dfs, t) ∧
        (∀ fuel, diamond.length < fuel →
          visit diamond hasCyclesObservers fuel (hasCyclesInit diamond) 1 "app" = .ok (dfs, t)) ∧
        HasCycles diamond "app" = .ok (dfs.captured, dfs.finished) ∧
        (∀ x, x ∈ dfs.started ↔ Reach diamond "app" x) ∧
        "app" ∈ dfs.started ∧ startOf dfs.log "app" = 1 ∧ finishOf dfs.log "app" = t ∧
        2 ≤ t ∧
        (∀ x, x ∈ dfs.started ↔ x ∈ dfs.finished) ∧ dfs.started.Nodup ∧
        dfs.started.length = dfs.finished.length ∧
        t = 2 * dfs.started.length ∧
        (∀ v ∈ dfs.started, 1 ≤ startOf dfs.log v ∧ startOf dfs.log v < finishOf dfs.log v ∧
          finishOf dfs.log v ≤ t) ∧
        (∀ u ∈ dfs.started, ∀ v ∈ dfs.started,
          (startOf dfs.log u = startOf dfs.log v → u = v) ∧
          (finishOf dfs.log u = finishOf dfs.log v → u = v) ∧
          startOf dfs.log u ≠ finishOf dfs.log v) ∧
        ∀ j, (1 ≤ j ∧ j ≤ t) ↔
          ((∃ v ∈ dfs.started, startOf dfs.log v = j) ∨
            (∃ v ∈ dfs.started, finishOf dfs.log v = j)) :=
  ⟨targetsAreKeys_of_checked (by decide), by decide, by decide,
    C16_timestamps diamond "app" (targetsAreKeys_of_checked (by decide)) (by decide)⟩

/-- C17: the invariant of the traversal log (no finish stamp without a start stamp,
and a finish stamp only above a non-zero start stamp) holds for the fresh log,
is kept by the start step on an unvisited entry and by the finish step with a
larger stamp, and holds in every state the traversal started by `HasCycles`
passes through, in particular in the state it returns. -/
theorem C17_log_invariant (g : configInheritanceGraph) (start : String) :
    LogOK (makeConfigInheritanceDFSLog g) ∧
      (∀ (log : configInheritanceDFSLog) (v : String) (e : LogEntry) (t : Nat),
        LogOK log → log v = some e → e.start = 0 → LogOK (setStart log v e t)) ∧
      (∀ (log : configInheritanceDFSLog) (v : String) (e : LogEntry) (t : Nat),
        LogOK log → 0 < e.start → e.start < t → LogOK (setFinish log v e t)) ∧
      (∀ s, During g hasCyclesObservers (.vertex start) (hasCyclesInit g) 1 s → LogOK s.log) ∧
      ∀ fuel dfs t,
        visit g hasCyclesObservers fuel (hasCyclesInit g) 1 start = .ok (dfs, t) →
        LogOK dfs.log := by
  have hdur : ∀ s, During g hasCyclesObservers (.vertex start) (hasCyclesInit g) 1 s →
      LogOK s.log := by
    intro s hs
    obtain ⟨k, hinv, hst⟩ := hs.consistent (inv_init g) (le_refl 1)
      (by simp [Call.pre, hasCyclesInit])
      (by simpa [Call.clock] using stamps_fresh g false)
    exact logOK_of_stamps hinv hst
  refine ⟨logOK_fresh g, ?_, ?_, hdur, ?_⟩
  · intro log v e t h hv h0
    exact logOK_setStart h hv h0 t
  · intro log v e t h h1 h2
    exact logOK_setFinish h h1 h2
  · intro fuel dfs t hv
    exact hdur dfs (visit_run _ _ _ _ _ _ hv).during

/-- C18: on a graph whose edge targets are keys, when `visit(1, start)` from the
fresh state of `HasCycles` has returned, every key not reachable from the start
key still has the log entry `(0, 0)` and the state `unvisited`, every key
reachable from it has both stamps non-zero and the state `finished`, and no
vertex has the state `unfinished`. -/
theorem C18_final_log (g : configInheritanceGraph) (start : String)
    (hg : TargetsAreKeys g) (hs : isKey g start = true) :
    ∃ dfs t, visit g hasCyclesObservers (g.length + 1) (hasCyclesInit g) 1 start = .ok (dfs, t) ∧
      (∀ x, isKey g x = true → ¬ Reach g start x →
        dfs.log x = some ⟨0, 0⟩ ∧ configInheritanceDFSLog.State dfs.log x = "unvisited") ∧
      (∀ x, isKey g x = true → Reach g start x →
        ∃ e, dfs.log x = some e ∧ e.start ≠ 0 ∧ e.finish ≠ 0 ∧
          configInheritanceDFSLog.State dfs.log x = "finished") ∧
      ∀ x, configInheritanceDFSLog.State dfs.log x ≠ "unfinished" := by
  obtain ⟨dfs, t, hfuel, run, _⟩ := hasCycles_visit_ok hg hs
  obtain ⟨hinv, _, hsf, hreach, _⟩ := run.fresh
  have entry : ∀ x, isKey g x = true → ∃ e, dfs.log x = some e := by
    intro x hk
    exact Option.ne_none_iff_exists'.1 ((hinv.dom x).2 hk)
  have unreach : ∀ x e, dfs.log x = some e → ¬ Reach g start x → e.start = 0 ∧ e.finish = 0 := by
    intro x e he hx
    have hnf : x ∉ dfs.finished := fun hm => hx ((hreach x).1 hm)
    have hns : x ∉ dfs.started := fun hm => hnf ((hsf x).1 hm)
    constructor
    · by_contra h0; exact hns ((hinv.st x e he).1 h0)
    · by_contra h0; exact hnf ((hinv.fi x e he).1 h0)
  have reach : ∀ x e, dfs.log x = some e → Reach g start x → e.start ≠ 0 ∧ e.finish ≠ 0 := by
    intro x e he hx
    have hf : x ∈ dfs.finished := (hreach x).2 hx
    exact ⟨(hinv.st x e he).2 ((hsf x).2 hf), (hinv.fi x e he).2 hf⟩
  refine ⟨dfs, t, hfuel _ (Nat.lt_succ_self _), ?_, ?_, ?_⟩
  · intro x hk hx
    obtain ⟨e, he⟩ := entry x hk
    obtain ⟨h0, h1⟩ := unreach x e he hx
    obtain ⟨a, b⟩ := e
    simp only at h0 h1
    subst h0 h1
    exact ⟨he, by simp [configInheritanceDFSLog.State, he]⟩
  · intro x hk hx
    obtain ⟨e, he⟩ := entry x hk
    obtain ⟨h0, h1⟩ := reach x e he hx
    exact ⟨e, he, h0, h1, by simp [configInheritanceDFSLog.State, he, h0, h1]⟩
  · intro x
    cases he : dfs.log x with
    | none => simp [configInheritanceDFSLog.State, he]
    | some e =>
      by_cases hx : Reach g start x
      · obtain ⟨h0, h1⟩ := reach x e he hx
        simp [configInheritanceDFSLog.State, he, h0, h1]
      · obtain ⟨h0, h1⟩ := unreach x e he hx
        simp [configInheritanceDFSLog.State, he, h0]

/-- C18 at the graph `looped` extended by a key `z` that `a` does not reach. -/
theorem C18_final_log_witness :
    TargetsAreKeys (("z", ["a"]) :: looped) ∧
      ∃ dfs t, visit (("z", ["a"]) :: looped) hasCyclesObservers
          ((("z", ["a"]) :: looped).length + 1) (hasCyclesInit (("z", ["a"]) :: looped)) 1 "a"
          = .ok (dfs, t) ∧
        (∀ x, isKey (("z", ["a"]) :: looped) x = true → ¬ Reach (("z", ["a"]) :: looped) "a" x →
          dfs.log x = some ⟨0, 0⟩ ∧ configInheritanceDFSLog.State dfs.log x = "unvisited") ∧
        (∀ x, isKey (("z", ["a"]) :: looped) x = true → Reach (("z", ["a"]) :: looped) "a" x →
          ∃ e, dfs.log x = some e ∧ e.start ≠ 0 ∧ e.finish ≠ 0 ∧
            configInheritanceDFSLog.State dfs.log x = "finished") ∧
        ∀ x, configInheritanceDFSLog.State dfs.log x ≠ "unfinished" :=
  ⟨targetsAreKeys_of_checked (by decide),
    C18_final_log (("z", ["a"]) :: looped) "a" (targetsAreKeys_of_checked (by decide))
      (by decide)⟩

/-- C19: on a graph whose edge targets are keys, cycles and self-loops included,
`visit(1, start)` from the fresh state of `HasCycles` terminates: every recursion
budget above the number of entries of the graph gives the same returned state.
The start step strictly decreases the number of unstarted keys, and `visit` was
entered at most once per vertex: the list `started`, extended on every entry, has
no duplicates, holds keys only, and is no longer than the graph. -/
theorem C19_visit_terminates (g : configInheritanceGraph) (start : String)
    (hg : TargetsAreKeys g) (hs : isKey g start = true) :
    ∃ dfs t,
      (∀ fuel, g.length < fuel →
        visit g hasCyclesObservers fuel (hasCyclesInit g) 1 start = .ok (dfs, t)) ∧
      dfs.started.Nodup ∧ (∀ v ∈ dfs.started, isKey g v = true) ∧
      dfs.started.length ≤ g.length ∧
      ∀ (dfs0 : configInheritanceDFS Bool) (v : String) (e : LogEntry) (t0 : Nat),
        isKey g v = true → v ∉ dfs0.started →
        unstarted g (fireVertex hasCyclesObservers.onStart v
          { dfs0 with log := setStart dfs0.log v e t0, started := dfs0.started ++ [v] })
          < unstarted g dfs0 := by
  obtain ⟨dfs, t, hfuel, run, _⟩ := hasCycles_visit_ok hg hs
  obtain ⟨hinv, hst, _, _, _⟩ := run.fresh
  refine ⟨dfs, t, hfuel, hst.snodup, hinv.keys, ?_, ?_⟩
  · have hsub : dfs.started ⊆ g.map Prod.fst :=
      fun x hx => (isKey_iff_mem g x).1 (hinv.keys x hx)
    have := (List.subperm_of_subset hst.snodup hsub).length_le
    simpa using this
  · intro dfs0 v e t0 hk hv
    exact unstarted_start hk hv (by simp)

/-- C19 at the graph with a self-loop on `a` and the cycle `a`, `b`, `a`. -/
theorem C19_visit_terminates_witness :
    TargetsAreKeys [("a", ["a", "b"]), ("b", ["a"])] ∧
      ∃ dfs t,
        (∀ fuel, [("a", ["a", "b"]), ("b", ["a"])].length < fuel →
          visit [("a", ["a", "b"]), ("b", ["a"])] hasCyclesObservers fuel
            (hasCyclesInit [("a", ["a", "b"]), ("b", ["a"])]) 1 "a" = .ok (dfs, t)) ∧
        dfs.started.Nodup ∧
        (∀ v ∈ dfs.started, isKey [("a", ["a", "b"]), ("b", ["a"])] v = true) ∧
        dfs.started.length ≤ [("a", ["a", "b"]), ("b", ["a"])].length ∧
        ∀ (dfs0 : configInheritanceDFS Bool) (v : String) (e : LogEntry) (t0 : Nat),
          isKey [("a", ["a", "b"]), ("b", ["a"])] v = true → v ∉ dfs0.started →
          unstarted [("a", ["a", "b"]), ("b", ["a"])]
            (fireVertex hasCyclesObservers.onStart v
              { dfs0 with log := setStart dfs0.log v e t0, started := dfs0.started ++ [v] })
            < unstarted [("a", ["a", "b"]), ("b", ["a"])] dfs0 :=
  ⟨targetsAreKeys_of_checked (by decide),
    C19_visit_terminates [("a", ["a", "b"]), ("b", ["a"])] "a"
      (targetsAreKeys_of_checked (by decide)) (by decide)⟩

/-- C20: `HasCycles(start)` panics on a nil log entry exactly when `start` is not a
key or some vertex reachable from `start` has an edge to a name that is not a
key; when `start` is a key and every edge out of a vertex reachable from it
leads to a key, `HasCycles` returns a flag and a merge order. -/
theorem C20_nil_dereference (g : configInheritanceGraph) (start : String) :
    (HasCycles g start = .nilDeref ↔
      (isKey g start = false ∨
        ∃ v w, Reach g start v ∧ w ∈ adj g v ∧ isKey g w = false)) ∧
    (isKey g start = true → ClosedFrom g start →
      ∃ b order, HasCycles g start = .ok (b, order)) := by
  have safe : isKey g start = true → ClosedFrom g start →
      ∃ b order, HasCycles g start = .ok (b, order) := by
    intro hk hcl
    obtain ⟨⟨dfs, t⟩, hc⟩ := @visit_safe Bool g hasCyclesObservers (g.length + 1)
      (hasCyclesInit g) 1 start (inv_init g) (le_refl 1) (by simp [hasCyclesInit])
      (Nat.lt_succ_of_le (unstarted_init_le g _)) hk hcl
    exact ⟨dfs.captured, dfs.finished, by simp [HasCycles, HasCyclesFuel, hc]⟩
  refine ⟨⟨?_, ?_⟩, safe⟩
  · intro hnil
    by_contra hcon
    simp only [not_or, not_exists, not_and, Bool.not_eq_false] at hcon
    obtain ⟨b, order, hok⟩ := safe hcon.1 (fun v w hv hw => hcon.2 v w hv hw)
    rw [hok] at hnil
    exact absurd hnil (by simp)
  · rintro (hk | ⟨v, w, hv, hw, hk⟩)
    · exact HasCyclesFuel_absent g start hk g.length
    · cases hc : visit g hasCyclesObservers (g.length + 1) (hasCyclesInit g) 1 start with
      | nilDeref => simp [HasCycles, HasCyclesFuel, hc]
      | outOfFuel => exact absurd hc (visit_init_ne_outOfFuel g start)
      | ok r =>
        obtain ⟨dfs, t⟩ := r
        have run : Run g hasCyclesObservers (.vertex start) (freshState g false) 1 dfs t :=
          visit_run _ _ _ _ _ _ hc
        obtain ⟨hinv, _, hsf, hreach, _⟩ := run.fresh
        have hwk := hinv.keys w (hinv.clos v ((hreach v).2 hv) w hw)
        rw [hk] at hwk
        exact absurd hwk (by simp)

end Claims


end GoNew
